import Mathlib

/-!
Verification development for the `obsidian2anytype` converter
(`to_anytype.js`).  The JavaScript source is shallowly embedded: pure
string-processing functions are translated to Lean functions on
`List Char` / `String`, the filesystem is modelled as an explicit tree of
entries, and the archive writer is modelled as a list of
`(entry name, content)` pairs.  Regex-based transformations are embedded
as deterministic scanners that reproduce the backtracking behaviour of
the concrete regexes used by the source (all of which are
deterministic-after-backtracking patterns: the relevant orderings are
spelled out at each definition).

Conventions:
* JavaScript `\s` is modelled by the ASCII whitespace characters
  (space, tab, newline, carriage return, vertical tab, form feed);
  the vault contents considered here are ASCII.
* `path` operations are modelled in POSIX form (separator `/`), matching
  the forward-slash normalisation the source itself applies before
  emitting any path.
-/

namespace O2A

/-- ASCII model of the JavaScript `\s` character class. -/
def isWsC (c : Char) : Bool :=
  c = ' ' || c = '\t' || c = '\n' || c = '\r' || c = Char.ofNat 11 || c = Char.ofNat 12

/-- JavaScript word characters (`\w`): letters, digits, underscore. -/
def isWordC (c : Char) : Bool :=
  (('a' ≤ c && c ≤ 'z') || ('A' ≤ c && c ≤ 'Z') || ('0' ≤ c && c ≤ '9') || c = '_')

/-- Characters allowed inside an Obsidian tag: letters, digits,
underscore, hyphen, forward slash. -/
def isTagC (c : Char) : Bool :=
  (('a' ≤ c && c ≤ 'z') || ('A' ≤ c && c ≤ 'Z') || ('0' ≤ c && c ≤ '9')
    || c = '_' || c = '-' || c = '/')

def isDigitC (c : Char) : Bool := '0' ≤ c && c ≤ '9'

/-- The backtick character (delimiter of inline code spans). -/
def btC : Char := Char.ofNat 96

/-- The backslash character. -/
def bslC : Char := Char.ofNat 92

/-- The dollar character (special in JS `String.replace` replacements). -/
def dollarC : Char := Char.ofNat 36

/-- The single-quote character. -/
def sqC : Char := Char.ofNat 39

/-- ASCII lowercasing, model of JS `toLowerCase` on the ASCII fragment. -/
def lowerL (l : List Char) : List Char := l.map Char.toLower

/-- JS `String.startsWith` (on the character lists underlying the
strings, so that it evaluates inside the kernel). -/
def sStarts (s pre : String) : Bool := pre.data.isPrefixOf s.data

/-- JS `String.endsWith`. -/
def sEnds (s suf : String) : Bool := suf.data.isSuffixOf s.data

/-- JS `String.slice(0, -n)` and friends: drop `n` characters from the
end. -/
def sDropRight (s : String) (n : Nat) : String :=
  String.mk (s.data.take (s.data.length - n))

/-- JS `String.trim` (strip leading and trailing `\s`). -/
def trimL (l : List Char) : List Char :=
  ((l.dropWhile isWsC).reverse.dropWhile isWsC).reverse

/-- Split a character list at every occurrence of the separator `c`
(model of JS `String.split` with a single-character separator). -/
def splitOnC (c : Char) : List Char → List (List Char)
  | [] => [[]]
  | a :: rest =>
    if a = c then [] :: splitOnC c rest
    else
      match splitOnC c rest with
      | [] => [[a]]
      | h :: t => (a :: h) :: t

/-- Replace every maximal run of whitespace by the single character `u`
(model of JS `replace(/\s+/g, u)`; `prevWs` records whether the previous
character belonged to a whitespace run). -/
def collapseWsAux (u : Char) (prevWs : Bool) : List Char → List Char
  | [] => []
  | c :: cs =>
    if isWsC c then (if prevWs then [] else [u]) ++ collapseWsAux u true cs
    else c :: collapseWsAux u false cs

def collapseWsL (u : Char) (l : List Char) : List Char := collapseWsAux u false l

/-- `sanitizePathForLink` from the source: normalise backslashes to
forward slashes, then replace whitespace runs by `_` independently in
every path segment. -/
def sanitizeL (l : List Char) : List Char :=
  let normalized := l.map (fun c => if c = bslC then '/' else c)
  List.intercalate ['/'] ((splitOnC '/' normalized).map (collapseWsL '_'))

def sanitizePathForLink (s : String) : String := String.mk (sanitizeL s.data)

/-- Model of JS `replace(/\\/g, '/')` (applied by the source after
sanitising, "critical for Anytype"). -/
def slashizeL (l : List Char) : List Char := l.map (fun c => if c = bslC then '/' else c)

def slashize (s : String) : String := String.mk (slashizeL s.data)

/-- POSIX model of `path.join` for two components, as used on
already-relative paths in the source (`path.join(a, b)` with `a`
non-empty, followed by backslash normalisation). -/
def joinRel (a b : String) : String := if a = "" then b else a ++ "/" ++ b

/-- `path.extname`: the final extension (including the dot) of the last
path component; a dot at position 0 of the component does not start an
extension. -/
def extnameL (l : List Char) : List Char :=
  let base := (splitOnC '/' l).getLastD []
  let idxs := (List.range base.length).filter (fun i => base.getD i ' ' = '.' && i ≠ 0)
  match idxs.getLast? with
  | none => []
  | some i => base.drop i

def extname (s : String) : String := String.mk (extnameL s.data)

/-- `path.basename`: the last path component. -/
def basenameL (l : List Char) : List Char := (splitOnC '/' l).getLastD []

def basename (s : String) : String := String.mk (basenameL s.data)

/-- `path.basename(p, ext)`: last component with a trailing occurrence of
`ext` removed. -/
def basenameExt (s ext : String) : String :=
  let b := basename s
  if ext ≠ "" && sEnds b ext && b ≠ ext then sDropRight b ext.data.length else b

/-! ### Wiki-link conversion (`convertObsidianLinks`) -/

/-- The replacer body of `convertObsidianLinks` for one wiki-link match
`[[linkContent]]`.  The filesystem search (`possiblePaths` probing plus
the recursive `findFile` fallback, both I/O) is abstracted as
`resolve`, which returns `path.relative(vaultPath, foundPath)` for the
found file, or `none` when every probe fails.  Everything after
resolution is embedded verbatim: on success the emitted target is the
relative path with backslashes normalised (and nothing else); on failure
the target is the note name with whitespace runs collapsed to single
spaces, suffixed with `.md`. -/
def wikiReplacer (resolve : String → Option String) (linkContent : List Char) : List Char :=
  let parts := splitOnC '|' linkContent
  let noteName := trimL (parts.getD 0 [])
  let p1 := parts.getD 1 []
  let displayText := if p1 ≠ [] then trimL p1 else noteName
  match resolve (String.mk noteName) with
  | some rel =>
    ['['] ++ displayText ++ "](".data ++ slashizeL rel.data ++ [')']
  | none =>
    let safeName := collapseWsL ' ' noteName ++ ".md".data
    ['['] ++ displayText ++ "](".data ++ safeName ++ [')']

/-- Match the regex `\[\[([^\]]+)\]\]` at the head of `s`, returning the
captured inner text and the remaining input after the match. -/
def wikiMatchAt (s : List Char) : Option (List Char × List Char) :=
  match s with
  | '[' :: '[' :: t =>
    let inner := t.takeWhile (fun c => c ≠ ']')
    if inner = [] then none
    else if (t.drop inner.length).take 2 = [']', ']'] then
      some (inner, t.drop (inner.length + 2))
    else none
  | _ => none

theorem wikiMatchAt_rest_lt {s inner rest : List Char}
    (h : wikiMatchAt s = some (inner, rest)) : rest.length < s.length := by
  unfold wikiMatchAt at h
  split at h
  case h_1 t =>
    dsimp only at h
    split at h
    · exact absurd h (by simp)
    · split at h
      · cases h
        simp only [List.length_cons, List.length_drop]
        omega
      · exact absurd h (by simp)
  case h_2 => exact absurd h (by simp)

/-- Global replacement loop of `content.replace(wikiLinkRegex, …)`:
leftmost matches, scanning resumes after each match, replacements are
not re-scanned.  The structural `fuel` only bounds the number of steps;
since every step consumes at least one character
(`wikiMatchAt_rest_lt`), the initial fuel `s.length` below makes the
fuel-exhaustion branch unreachable. -/
def convertObsidianLinksGo (resolve : String → Option String) :
    Nat → List Char → List Char
  | 0, _ => []
  | _ + 1, [] => []
  | fuel + 1, c :: cs =>
    match wikiMatchAt (c :: cs) with
    | some (inner, rest) =>
      wikiReplacer resolve inner ++ convertObsidianLinksGo resolve fuel rest
    | none => c :: convertObsidianLinksGo resolve fuel cs

def convertObsidianLinks (resolve : String → Option String) (s : List Char) : List Char :=
  convertObsidianLinksGo resolve s.length s

/-! ### Image conversion (`convertImages`) -/

/-- Emission for a *resolved* `![[…]]` embed (`convertImages`, success
branch): the link target is the vault-relative path of the found file,
sanitised, with backslashes normalised; the alt text is the embed path's
basename without its extension.  `linkPath` abstracts the
`path.relative(vaultPath, fullImagePath)` computation (possibly replaced
by the original path when the file lies outside the vault). -/
def imageFoundEmit (linkPath imagePath : List Char) : List Char :=
  let sanitizedPath := slashizeL (sanitizeL linkPath)
  "![".data ++ (basenameExt (String.mk imagePath) (extname (String.mk imagePath))).data
    ++ "](".data ++ sanitizedPath ++ [')']

/-- Emission for an *unresolved* `![[…]]` embed (`convertImages`, failure
branch): the link target is the best-effort path `imagePathToUse`
(the vault-relative reconstruction when constructible, otherwise the
original reference), sanitised, with backslashes normalised; the alt
text is the full basename of the original reference. -/
def imageNotFoundEmit (imagePathToUse imagePath : List Char) : List Char :=
  let sanitizedPath := slashizeL (sanitizeL imagePathToUse)
  "![".data ++ basenameL imagePath ++ "](".data ++ sanitizedPath ++ [')']

/-- Match the regex `!\[([^\]]*)\]\(([^)]+)\)` at the head of `s`,
returning the two captures (alt text, image path) and the rest. -/
def mdImageMatchAt (s : List Char) : Option ((List Char × List Char) × List Char) :=
  match s with
  | '!' :: '[' :: t =>
    let alt := t.takeWhile (fun c => c ≠ ']')
    match t.drop alt.length with
    | ']' :: '(' :: u =>
      let tgt := u.takeWhile (fun c => c ≠ ')')
      if tgt = [] then none
      else
        match u.drop tgt.length with
        | ')' :: rest => some ((alt, tgt), rest)
        | _ => none
    | _ => none
  | _ => none

theorem mdImageMatchAt_rest_lt {s : List Char} {caps : List Char × List Char}
    {rest : List Char} (h : mdImageMatchAt s = some (caps, rest)) :
    rest.length < s.length := by
  unfold mdImageMatchAt at h
  split at h
  case h_1 t =>
    dsimp only at h
    split at h
    case h_1 u heq =>
      split at h
      · exact absurd h (by simp)
      · split at h
        case h_1 rest' heq2 =>
          cases h
          have h1 : u.length ≤ t.length := by
            have := congrArg List.length heq
            simp only [List.length_drop, List.length_cons] at this
            omega
          have h2 : rest.length < u.length := by
            have := congrArg List.length heq2
            simp only [List.length_drop, List.length_cons] at this
            omega
          simp only [List.length_cons]
          omega
        · exact absurd h (by simp)
    · exact absurd h (by simp)
  case h_2 => exact absurd h (by simp)

/-- The replacer body of the second pass of `convertImages` (standard
markdown image syntax `![alt](path)`).  A target beginning with
`http://`, `https://` or `data:` is returned untouched (the whole match
is reproduced verbatim).  All other targets go through the `.md`-suffix
repair and the filesystem search; that branch ends in pure path
emission, abstracted here as `fallback` (it depends on the filesystem
and the current file's location). -/
def mdImageReplacer (fallback : List Char → List Char → List Char)
    (alt tgt : List Char) : List Char :=
  if ("http://".data).isPrefixOf tgt || ("https://".data).isPrefixOf tgt
      || ("data:".data).isPrefixOf tgt then
    "![".data ++ alt ++ "](".data ++ tgt ++ [')']
  else fallback alt tgt

/-- Global replacement loop of the second pass of `convertImages`
(fuel as in `convertObsidianLinksGo`, justified by
`mdImageMatchAt_rest_lt`). -/
def convertImagesPass2Go (fallback : List Char → List Char → List Char) :
    Nat → List Char → List Char
  | 0, _ => []
  | _ + 1, [] => []
  | fuel + 1, c :: cs =>
    match mdImageMatchAt (c :: cs) with
    | some ((alt, tgt), rest) =>
      mdImageReplacer fallback alt tgt ++ convertImagesPass2Go fallback fuel rest
    | none => c :: convertImagesPass2Go fallback fuel cs

def convertImagesPass2 (fallback : List Char → List Char → List Char)
    (s : List Char) : List Char :=
  convertImagesPass2Go fallback s.length s

/-! ### Frontmatter block matching

Model of the anchored regex used throughout the source:
`^---` then greedy whitespace ending in a newline, then a lazy capture,
then a newline, `---`, and again greedy whitespace ending in a newline.
-/

/-- All ways of matching the greedy `\s*\n` at the start of `t`,
longest consumption first — the backtracking order of the regex engine —
as `(consumed, rest)` pairs. -/
def wsNlCands (t : List Char) : List (List Char × List Char) :=
  let run := t.takeWhile isWsC
  (((List.range run.length).filter (fun i => run.getD i ' ' = '\n')).reverse).map
    (fun i => (t.take (i + 1), t.drop (i + 1)))

/-- The greedy (first-preference) match of `\s*\n` at the start of `t`. -/
def wsNlGreedy (t : List Char) : Option (List Char × List Char) :=
  (wsNlCands t).head?

/-- Scan for the closing delimiter `\n---\s*\n`: the lazy capture grows
from the left (minimal first); at each candidate position the trailing
`\s*\n` is greedy.  Returns (capture, consumed separator, rest). -/
def findSep : List Char → Option (List Char × List Char × List Char)
  | [] => none
  | c :: cs =>
    if ("\n---".data).isPrefixOf (c :: cs) then
      match wsNlGreedy ((c :: cs).drop 4) with
      | some (w, rest) => some ([], "\n---".data ++ w, rest)
      | none =>
        match findSep cs with
        | some (cap, sep, r) => some (c :: cap, sep, r)
        | none => none
    else
      match findSep cs with
      | some (cap, sep, r) => some (c :: cap, sep, r)
      | none => none

/-- Try the opening-delimiter candidates in backtracking order. -/
def frontMatchCands :
    List (List Char × List Char) → Option (List Char × List Char × List Char)
  | [] => none
  | (opn, rem) :: more =>
    match findSep rem with
    | some (cap, sep, rest) => some ("---".data ++ opn ++ cap ++ sep, cap, rest)
    | none => frontMatchCands more

/-- Model of matching the frontmatter regex against `content` (anchored,
no global flag): returns (full match, capture group 1, rest of the
string), or `none`. -/
def frontMatch (s : List Char) : Option (List Char × List Char × List Char) :=
  if ("---".data).isPrefixOf s then frontMatchCands (wsNlCands (s.drop 3))
  else none

/-! ### Frontmatter objects with JS property semantics -/

/-- A frontmatter value: either a scalar string (everything the simple
line parser produces) or the synthesised tags object, whose keys equal
their values (so only the key list is stored). -/
inductive FmVal where
  | str (v : List Char)
  | tagsObj (keys : List (List Char))
deriving DecidableEq

/-- A frontmatter object, entries in JS property *creation* order.
Enumeration order (`Object.entries`, `Object.keys`) is obtained through
`jsEntries` below. -/
abbrev FmObj := List (List Char × FmVal)

/-- JS property assignment `obj[k] = v`: overwrite in place when the key
exists, append otherwise. -/
def objInsert (k : List Char) (v : FmVal) : FmObj → FmObj
  | [] => [(k, v)]
  | (k0, v0) :: rest =>
    if k0 = k then (k0, v) :: rest else (k0, v0) :: objInsert k v rest

def objGet (k : List Char) : FmObj → Option FmVal
  | [] => none
  | (k0, v0) :: rest => if k0 = k then some v0 else objGet k rest

/-- Numeric value of a digit string. -/
def digitsVal (l : List Char) : Nat :=
  l.foldl (fun n c => n * 10 + (c.toNat - 48)) 0

/-- JS array-index property keys: canonical decimal strings with value
below 2^32 − 1.  `Object.entries` enumerates these first, in ascending
numeric order. -/
def isArrayIndexKey (k : List Char) : Bool :=
  k ≠ [] && k.all isDigitC && (k = ['0'] || k.headD ' ' ≠ '0')
    && digitsVal k < 4294967295

/-- Insertion into a list sorted by ascending numeric key. -/
def insertByNum (e : List Char × FmVal) :
    List (List Char × FmVal) → List (List Char × FmVal)
  | [] => [e]
  | f :: fs =>
    if digitsVal e.1 < digitsVal f.1 then e :: f :: fs else f :: insertByNum e fs

def sortByNum : List (List Char × FmVal) → List (List Char × FmVal)
  | [] => []
  | e :: es => insertByNum e (sortByNum es)

/-- JS `Object.entries` enumeration order. -/
def jsEntries (o : FmObj) : FmObj :=
  sortByNum (o.filter (fun e => isArrayIndexKey e.1))
    ++ o.filter (fun e => !isArrayIndexKey e.1)

/-- Insertion of a bare key into a numerically sorted key list. -/
def insertKeyByNum (k : List Char) : List (List Char) → List (List Char)
  | [] => [k]
  | f :: fs => if digitsVal k < digitsVal f then k :: f :: fs else f :: insertKeyByNum k fs

def sortKeysByNum : List (List Char) → List (List Char)
  | [] => []
  | k :: ks => insertKeyByNum k (sortKeysByNum ks)

/-- JS `Object.keys` enumeration order for the tags object. -/
def jsKeysOrder (ks : List (List Char)) : List (List Char) :=
  sortKeysByNum (ks.filter isArrayIndexKey) ++ ks.filter (fun k => !isArrayIndexKey k)

/-! ### Frontmatter parsing and serialisation -/

/-- Strip one symmetric layer of quotes (double or single), as the
line parser does. -/
def stripQuotes (v : List Char) : List Char :=
  if v ≠ [] &&
      ((v.headD ' ' = '"' && v.getLastD ' ' = '"')
        || (v.headD ' ' = sqC && v.getLastD ' ' = sqC)) then
    (v.drop 1).dropLast
  else v

/-- One line of the frontmatter parser: split at the first colon
(only when its index is positive), trim the key, trim and unquote the
value, and assign. -/
def parseFmLine (o : FmObj) (line : List Char) : FmObj :=
  let pre := line.takeWhile (fun c => c ≠ ':')
  if 0 < pre.length ∧ pre.length < line.length then
    objInsert (trimL pre) (.str (stripQuotes (trimL (line.drop (pre.length + 1))))) o
  else o

/-- `existingFrontmatter.split('\n').forEach(…)`. -/
def parseFm (cap : List Char) : FmObj :=
  (splitOnC '\n' cap).foldl parseFmLine []

def quoteVal (v : List Char) : List Char := '"' :: (v ++ ['"'])

/-- The serialised tag block: two-space-indented `tag: "tag"` lines in
JS enumeration order, joined by newlines. -/
def tagLines (ks : List (List Char)) : List Char :=
  List.intercalate ['\n']
    ((jsKeysOrder ks).map (fun t => "  ".data ++ t ++ ": ".data ++ quoteVal t))

/-- One line (or block, for tags) of the rebuilt frontmatter. -/
def serializeEntry (e : List Char × FmVal) : List Char :=
  match e.2 with
  | .str v => e.1 ++ ": ".data ++ quoteVal v
  | .tagsObj ks =>
    if e.1 = "tags".data then e.1 ++ [':', '\n'] ++ tagLines ks
    else e.1 ++ ": [object Object]".data

/-- The rebuilt frontmatter block:
`'---\n' + entries.join('\n') + '\n---\n'`. -/
def serializeFm (o : FmObj) : List Char :=
  "---\n".data ++ List.intercalate ['\n'] ((jsEntries o).map serializeEntry)
    ++ "\n---\n".data

/-- JS `String.replace` replacement-string expansion for a pattern with
one capture group matched at position 0 (so the portion before the
match is empty): `$$`, `$&`, the before/after-match escapes, and `$1`
are interpreted; any other `$`-sequence stays literal. -/
def expandRepl (m cap suffix : List Char) : List Char → List Char
  | [] => []
  | c :: cs =>
    if c = dollarC then
      match cs with
      | [] => [c]
      | d :: ds =>
        if d = dollarC then dollarC :: expandRepl m cap suffix ds
        else if d = '&' then m ++ expandRepl m cap suffix ds
        else if d = btC then expandRepl m cap suffix ds
        else if d = sqC then suffix ++ expandRepl m cap suffix ds
        else if d = '1' then cap ++ expandRepl m cap suffix ds
        else c :: expandRepl m cap suffix (d :: ds)
    else c :: expandRepl m cap suffix cs

/-! ### Tag extraction (`extractTags`) -/

/-- Index of the first occurrence of three consecutive backticks. -/
def findTripleBt : List Char → Option Nat
  | [] => none
  | c :: cs =>
    if c = btC ∧ cs.take 2 = [btC, btC] then some 0
    else (findTripleBt cs).map (· + 1)

/-- Inline code-span alternative of the code-block regex at the head of
`s` (backtick, one or more non-backticks, backtick); returns the rest
after the match. -/
def inlineCodeAt (s : List Char) : Option (List Char) :=
  match s with
  | [] => none
  | c :: t =>
    if c = btC then
      let run := t.takeWhile (fun x => x ≠ btC)
      if run ≠ [] ∧ (t.drop run.length).headD ' ' = btC then
        some (t.drop (run.length + 1))
      else none
    else none

/-- Model of matching the code-block regex at the head of `s`: the
fenced alternative (lazy) is tried first, the inline alternative
otherwise (which also covers the fenced-but-unclosed case, where it
necessarily fails too). -/
def codeMatchAt (s : List Char) : Option (List Char) :=
  if s.take 3 = [btC, btC, btC] then
    match findTripleBt (s.drop 3) with
    | some j => some (s.drop (3 + j + 3))
    | none => inlineCodeAt s
  else inlineCodeAt s

theorem inlineCodeAt_rest_lt {s rest : List Char}
    (h : inlineCodeAt s = some rest) : rest.length < s.length := by
  unfold inlineCodeAt at h
  split at h
  · exact absurd h (by simp)
  case h_2 c t =>
    split at h
    · dsimp only at h
      split at h
      · cases h
        simp only [List.length_cons, List.length_drop]
        omega
      · exact absurd h (by simp)
    · exact absurd h (by simp)

theorem codeMatchAt_rest_lt {s rest : List Char}
    (h : codeMatchAt s = some rest) : rest.length < s.length := by
  unfold codeMatchAt at h
  split at h
  case isTrue htake =>
    have hlen : 3 ≤ s.length := by
      have := congrArg List.length htake
      simp only [List.length_take, List.length_cons, List.length_nil] at this
      omega
    split at h
    · cases h
      simp only [List.length_drop]
      omega
    · exact inlineCodeAt_rest_lt h
  case isFalse => exact inlineCodeAt_rest_lt h

/-- The non-code parts of the content: the (non-empty) gap substrings
strictly between successive leftmost code-span matches, plus a final
non-empty tail (model of the `codeBlockRegex` extraction loop with its
`match.index > lastIndex` and `lastIndex < content.length` guards).
`cur` accumulates the current gap, reversed.  Fuel as in
`convertObsidianLinksGo`, justified by `codeMatchAt_rest_lt`. -/
def codePartsGo (cur : List Char) : Nat → List Char → List (List Char)
  | 0, _ => if cur = [] then [] else [cur.reverse]
  | _ + 1, [] => if cur = [] then [] else [cur.reverse]
  | fuel + 1, c :: cs =>
    match codeMatchAt (c :: cs) with
    | some rest => (if cur = [] then [] else [cur.reverse]) ++ codePartsGo [] fuel rest
    | none => codePartsGo (c :: cur) fuel cs

def codeParts (s : List Char) : List (List Char) := codePartsGo [] s.length s

/-- Trailing-lookahead test `(?=[\s\W]|$)` of the tag regex. -/
def lookaheadOk : List Char → Bool
  | [] => true
  | c :: _ => isWsC c || !isWordC c

/-- The shared tail of both alternatives of the tag regex: the `#`
marker has been consumed, `t` is what follows; take the maximal run of
tag characters (non-empty) and check the trailing lookahead. -/
def tagRunAt (t : List Char) : Option (List Char × List Char) :=
  let run := t.takeWhile isTagC
  if run ≠ [] ∧ lookaheadOk (t.drop run.length) then some (run, t.drop run.length)
  else none

/-- The `[\s\W]`-prefixed alternative of the tag regex (consumes the
preceding character). -/
def tagAlt2 (s : List Char) : Option (List Char × List Char) :=
  match s with
  | c :: '#' :: t => if isWsC c ∨ ¬ isWordC c then tagRunAt t else none
  | _ => none

/-- Match the tag regex at the head of `s`.  `first` marks string
position 0, where the zero-width anchor alternative of the leading
group applies (tried before the one-character `[\s\W]` alternative,
following the regex's alternation order).  Returns (capture, rest after
the whole match). -/
def tagMatchAt (first : Bool) (s : List Char) : Option (List Char × List Char) :=
  let a1 : Option (List Char × List Char) :=
    if first then
      match s with
      | '#' :: t => tagRunAt t
      | _ => none
    else none
  match a1 with
  | some r => some r
  | none => tagAlt2 s

theorem tagRunAt_rest_le {t cap rest : List Char}
    (h : tagRunAt t = some (cap, rest)) : rest.length ≤ t.length := by
  unfold tagRunAt at h
  dsimp only at h
  split at h
  · cases h
    simp only [List.length_drop]
    omega
  · exact absurd h (by simp)

theorem tagAlt2_rest_lt {s cap rest : List Char}
    (h : tagAlt2 s = some (cap, rest)) : rest.length < s.length := by
  unfold tagAlt2 at h
  split at h
  case h_1 c t =>
    split at h
    · have := tagRunAt_rest_le h
      simp only [List.length_cons]
      omega
    · exact absurd h (by simp)
  case h_2 => exact absurd h (by simp)

theorem tagMatchAt_rest_lt {first : Bool} {s cap rest : List Char}
    (h : tagMatchAt first s = some (cap, rest)) : rest.length < s.length := by
  unfold tagMatchAt at h
  dsimp only at h
  split at h
  case h_1 r heq =>
    cases h
    split at heq
    · split at heq
      case h_1 t =>
        have := tagRunAt_rest_le heq
        simp only [List.length_cons]
        omega
      case h_2 => exact absurd heq (by simp)
    · exact absurd heq (by simp)
  case h_2 => exact tagAlt2_rest_lt h

/-- The `tagRegex.exec` loop: leftmost matches, scanning resumes after
each whole match (which includes the consumed preceding character when
the `[\s\W]` alternative applied).  Fuel as in
`convertObsidianLinksGo`, justified by `tagMatchAt_rest_lt`. -/
def scanTagsGo (first : Bool) : Nat → List Char → List (List Char)
  | 0, _ => []
  | _ + 1, [] => []
  | fuel + 1, c :: cs =>
    match tagMatchAt first (c :: cs) with
    | some (cap, rest) => cap :: scanTagsGo false fuel rest
    | none => scanTagsGo false fuel cs

def scanTags (s : List Char) : List (List Char) := scanTagsGo true s.length s

/-- First-occurrence deduplication (JS `Set` insertion order). -/
def dedupKeys : List (List Char) → List (List Char)
  | [] => []
  | k :: ks => k :: (dedupKeys ks).filter (fun x => x ≠ k)

/-- JS default string comparison: lexicographic on code units. -/
def strLtL : List Char → List Char → Bool
  | [], [] => false
  | [], _ :: _ => true
  | _ :: _, [] => false
  | a :: as, b :: bs =>
    if a.toNat < b.toNat then true
    else if b.toNat < a.toNat then false
    else strLtL as bs

def insertStr (k : List Char) : List (List Char) → List (List Char)
  | [] => [k]
  | x :: xs => if strLtL k x then k :: x :: xs else x :: insertStr k xs

/-- JS `Array.sort()` on deduplicated strings. -/
def sortStrs : List (List Char) → List (List Char)
  | [] => []
  | k :: ks => insertStr k (sortStrs ks)

/-- `extractTags` from the source: split out the code spans, join the
non-code parts (falling back to the *whole raw content* when the parts
list is empty — which also happens when the content consists entirely of
code spans), scan the result for tags, trim each capture, drop empties,
deduplicate in first-occurrence order and sort. -/
def extractTagsL (content : List Char) : List (List Char) :=
  let parts := codeParts content
  let textToSearch := if parts ≠ [] then parts.flatten else content
  sortStrs (dedupKeys (((scanTags textToSearch).map trimL).filter (fun t => t ≠ [])))

def extractTags (s : String) : List String := (extractTagsL s.data).map String.mk

/-! ### Set info and `addPageMetadata` -/

/-- The fields of the `setInfo` objects produced by
`getSetInfoForExport` that the metadata path consumes (the derived
`path`/`setFileName` fields, used only for logging, are omitted).
`rootSet` is `none` for JS `null`. -/
structure SetInfoE where
  name : String
  relativePath : String
  isRootSet : Bool
  rootSet : Option String
  isDeleted : Bool
deriving DecidableEq

/-- JS truthiness of a nullable string. -/
def jsTruthyS : Option String → Bool
  | none => false
  | some s => s ≠ ""

/-- `setInfo && setInfo.rootSet ? 'SetLeaf' : 'Page'`. -/
def pageTypeFor (si : Option SetInfoE) : List Char :=
  match si with
  | some info => if jsTruthyS info.rootSet then "SetLeaf".data else "Page".data
  | none => "Page".data

/-- The existing tags read back from the parsed frontmatter object
(`frontmatterObj.tags`): falsy (absent or empty string) gives none; a
tags object gives its keys in enumeration order; any other string is
split at commas and trimmed.  (Parsed values are never JS arrays, so
the `Array.isArray` branch cannot fire.) -/
def existingTagsOf (o : FmObj) : List (List Char) :=
  match objGet "tags".data o with
  | none => []
  | some (.tagsObj ks) => jsKeysOrder ks
  | some (.str v) => if v = [] then [] else (splitOnC ',' v).map trimL

/-- The frontmatter object rebuilt by `addPageMetadata` when a
frontmatter block was present: parse, overwrite `type`, overwrite `set`
when the set info has a truthy root set, then merge tags when any were
extracted. -/
def mergedObjOfCap (cap : List Char) (si : Option SetInfoE)
    (tags : List (List Char)) : FmObj :=
  let o := parseFm cap
  let o := objInsert "type".data (.str (pageTypeFor si)) o
  let o :=
    match si with
    | some info =>
      if jsTruthyS info.rootSet then
        objInsert "set".data (.str (info.rootSet.getD "").data) o
      else o
    | none => o
  if tags ≠ [] then
    objInsert "tags".data (.tagsObj (sortStrs (dedupKeys (existingTagsOf o ++ tags)))) o
  else o

/-- The fresh frontmatter object synthesised by `addPageMetadata` when
no block was present: `type`, conditionally `set`, conditionally
`tags`. -/
def freshObj (si : Option SetInfoE) (tags : List (List Char)) : FmObj :=
  let base : FmObj := [("type".data, .str (pageTypeFor si))]
  let base :=
    match si with
    | some info =>
      if jsTruthyS info.rootSet then
        base ++ [("set".data, .str (info.rootSet.getD "").data)]
      else base
    | none => base
  if tags ≠ [] then base ++ [("tags".data, .tagsObj tags)] else base

/-- `addPageMetadata(content, setInfo)`: extract tags from the whole
content, then either rewrite the existing frontmatter block in place
(`content.replace(frontmatterRegex, newFrontmatter)`, including the
JS replacement-string expansion) or prepend a fresh block followed by a
blank line. -/
def addPageMetadataL (content : List Char) (si : Option SetInfoE) : List Char :=
  let tags := extractTagsL content
  match frontMatch content with
  | some (m, cap, rest) =>
    expandRepl m cap rest (serializeFm (mergedObjOfCap cap si tags)) ++ rest
  | none =>
    serializeFm (freshObj si tags) ++ ['\n'] ++ content

def addPageMetadata (content : String) (si : Option SetInfoE) : String :=
  String.mk (addPageMetadataL content.data si)

/-! ### Exclusion (`isDeleted`) -/

/-- The name-based clauses of `isDeleted` (case-insensitive exact,
prefix and suffix marker tokens, tested on the entry name only). -/
def nameDeleted (name : String) : Bool :=
  let lower := String.mk (lowerL name.data)
  lower = "deleted" || lower = "trash"
    || sStarts lower "deleted_" || sStarts lower "trash_"
    || sEnds lower "_deleted" || sEnds lower "_trash"

/-- Is the character at index `i` a word character? (out of range: no). -/
def isWordAt (l : List Char) (i : Nat) : Bool :=
  match l.get? i with
  | none => false
  | some c => isWordC c

/-- JS word boundary at position `i` of `l`. -/
def wordB (l : List Char) (i : Nat) : Bool :=
  (if i = 0 then false else isWordAt l (i - 1)) != isWordAt l i

/-- Does `/\bdeleted\s*:\s*(true|yes|1)\b/i` match starting at `i`? -/
def deletedTrueAt (l : List Char) (i : Nat) : Bool :=
  wordB l i && lowerL ((l.drop i).take 7) = "deleted".data &&
    (let rest := l.drop (i + 7)
     let ws1 := rest.takeWhile isWsC
     match rest.drop ws1.length with
     | ':' :: r2 =>
       let ws2 := r2.takeWhile isWsC
       let v := r2.drop ws2.length
       let vpos := i + 7 + ws1.length + 1 + ws2.length
       if lowerL (v.take 4) = "true".data && wordB l (vpos + 4) then true
       else if lowerL (v.take 3) = "yes".data && wordB l (vpos + 3) then true
       else if v.take 1 = ['1'] && wordB l (vpos + 1) then true
       else false
     | _ => false)

/-- `/\bdeleted\s*:\s*(true|yes|1)\b/i.test(frontmatter)`. -/
def testDeletedTrue (l : List Char) : Bool :=
  (List.range (l.length + 1)).any (fun i => deletedTrueAt l i)

/-- Does `/\bstatus\s*:\s*deleted\b/i` match starting at `i`? -/
def statusDeletedAt (l : List Char) (i : Nat) : Bool :=
  wordB l i && lowerL ((l.drop i).take 6) = "status".data &&
    (let rest := l.drop (i + 6)
     let ws1 := rest.takeWhile isWsC
     match rest.drop ws1.length with
     | ':' :: r2 =>
       let ws2 := r2.takeWhile isWsC
       let v := r2.drop ws2.length
       lowerL (v.take 7) = "deleted".data
         && wordB l (i + 6 + ws1.length + 1 + ws2.length + 7)
     | _ => false)

/-- `/\bstatus\s*:\s*deleted\b/i.test(frontmatter)`. -/
def testStatusDeleted (l : List Char) : Bool :=
  (List.range (l.length + 1)).any (fun i => statusDeletedAt l i)

/-- The frontmatter-based clause of `isDeleted`: the document's leading
frontmatter block, when present, contains one of the explicit
deleted-status markers. -/
def fmDeclaresDeleted (content : String) : Bool :=
  match frontMatch content.data with
  | some (_, cap, _) => testDeletedTrue cap || testStatusDeleted cap
  | none => false

/-- `isDeleted(filePath, name)`.  `readFile` abstracts
`fs.readFileSync`: `none` models a failed read (missing file or a
directory, e.g. a directory whose name ends in `.md`), which the source
catches and treats as not deleted. -/
def isDeleted (filePath name : String) (readFile : String → Option String) : Bool :=
  nameDeleted name ||
    ((String.mk (lowerL (extname filePath).data) = ".md"
        || String.mk (lowerL (extname filePath).data) = ".markdown") &&
      match readFile filePath with
      | some content => fmDeclaresDeleted content
      | none => false)

/-! ### Filesystem model -/

/-! A filesystem entry: a file with contents, or a directory with its
listing (`fs.readdirSync` order).  The listing is a dedicated mutual
type (rather than `List Fse`) so that recursion over the tree is
structural. -/
mutual
inductive Fse where
  | file (name : String) (content : String)
  | dir (name : String) (entries : FseList)
inductive FseList where
  | nil
  | cons (e : Fse) (es : FseList)
end

def FseList.toList : FseList → List Fse
  | .nil => []
  | .cons e es => e :: es.toList

def FseList.ofList : List Fse → FseList
  | [] => .nil
  | e :: es => .cons e (FseList.ofList es)

def Fse.name : Fse → String
  | .file n _ => n
  | .dir n _ => n

def Fse.isDirE : Fse → Bool
  | .file _ _ => false
  | .dir _ _ => true

def Fse.isFileE : Fse → Bool
  | .file _ _ => true
  | .dir _ _ => false

def lowerS (s : String) : String := String.mk (lowerL s.data)

/-- `isDeleted` applied to a tree entry: a file's contents are readable;
reading a directory throws (which the source catches, so only the name
clauses can fire there). -/
def isDeletedE : Fse → Bool
  | .file n c => isDeleted n n (fun _ => some c)
  | .dir n _ => isDeleted n n (fun _ => none)

/-- The hidden-entry test shared by the traversals:
`entry.name.startsWith('.') && entry.name !== '.'`. -/
def hiddenName (n : String) : Bool := sStarts n "." && n ≠ "."

/-- The constant modelling the vault root path (only used to build the
full path strings the source feeds to `shouldIncludeFile`). -/
def vaultRootS : String := "vault"

def fullPathOf (segs : List String) (n : String) : String :=
  String.intercalate "/" (vaultRootS :: (segs ++ [n]))

/-- Substring containment, model of JS `String.includes`. -/
def containsSub (s sub : String) : Bool :=
  (List.range (s.data.length + 1)).any (fun i => sub.data.isPrefixOf (s.data.drop i))

/-- `findFileRecursively(searchDir, fileName, maxDepth, currentDepth)`
over the tree (`entries` is the listing of `searchDir`; `searchDir` is
the path string from which returned paths are built).  The source
checks the depth guard once per directory; since `currentDepth` is
constant across a directory's loop, re-checking it per entry, as this
recursion does, is equivalent.  Likewise the hidden/deleted skip check
written once in the source's loop is repeated in each constructor
case. -/
def findFileRecursively (entries : FseList) (searchDir fileName : String)
    (maxDepth currentDepth : Nat) : Option String :=
  if maxDepth ≤ currentDepth then none
  else
    match entries with
    | .nil => none
    | .cons (.file n c) es =>
      if hiddenName n || isDeletedE (.file n c) then
        findFileRecursively es searchDir fileName maxDepth currentDepth
      else if lowerS n = lowerS fileName then some (searchDir ++ "/" ++ n)
      else findFileRecursively es searchDir fileName maxDepth currentDepth
    | .cons (.dir n sub) es =>
      if hiddenName n || isDeletedE (.dir n sub) then
        findFileRecursively es searchDir fileName maxDepth currentDepth
      else
        match findFileRecursively sub (searchDir ++ "/" ++ n) fileName maxDepth
            (currentDepth + 1) with
        | some r => some r
        | none => findFileRecursively es searchDir fileName maxDepth currentDepth

/-- The extension allow-list of `shouldIncludeFile`. -/
def includedExtensions : List String :=
  [".md", ".markdown",
   ".png", ".jpg", ".jpeg", ".gif", ".svg", ".webp", ".bmp", ".ico", ".tiff",
   ".tif", ".heic", ".heif",
   ".pdf", ".doc", ".docx", ".xls", ".xlsx", ".ppt", ".pptx", ".odt", ".ods",
   ".odp",
   ".mp3", ".mp4", ".wav", ".ogg", ".flac", ".aac", ".m4a", ".wma",
   ".avi", ".mov", ".wmv", ".flv", ".mkv", ".webm",
   ".zip", ".rar", ".7z", ".tar", ".gz",
   ".txt", ".csv", ".json", ".xml", ".yaml", ".yml", ".toml",
   ".js", ".ts", ".py", ".java", ".cpp", ".c", ".h", ".html", ".css",
   ".rtf", ".epub", ".mobi", ".azw", ".fb2"]

/-- `shouldIncludeFile(filePath)`; `readFile` feeds the frontmatter part
of the `isDeleted` check. -/
def shouldIncludeFile (filePath : String) (readFile : String → Option String) : Bool :=
  let ext := lowerS (extname filePath)
  let name := basename filePath
  if isDeleted filePath name readFile then false
  else if [".obsidian", ".trash", ".git"].any (fun ex =>
      containsSub filePath ("/" ++ ex ++ "/") || containsSub filePath ("/" ++ ex)) then
    false
  else if includedExtensions.contains ext then true
  else if !([".obsidian", ".DS_Store"].any (fun e => containsSub name e)) then true
  else false

/-! ### Hierarchy classification -/

/-- `isDeleted(dirPath, dirName)` for a directory (the read fails, so
only the name clauses apply). -/
def isDeletedDirName (n : String) : Bool := isDeleted n n (fun _ => none)

/-- `getRootSetForPathExport(dirPath, exportRootPath)` with the
directory represented by its segment path below the export root
(`[]` is the export root itself).  The upward walk of the source is the
`dropLast` recursion; the structural `fuel` models the source's
safety-break bound on the loop (with fuel `segs.length` the walk always
terminates through the singleton case first). -/
def getRootSetWalk : Nat → List String → Option String
  | 0, _ => none
  | _ + 1, [] => none
  | _ + 1, [d] => if isDeletedDirName d then none else some d
  | fuel + 1, d :: e :: rest => getRootSetWalk fuel ((d :: e :: rest).dropLast)

def getRootSetForPathExport (segs : List String) : Option String :=
  getRootSetWalk segs.length segs

/-- The deleted-marker test of `getSetInfoForExport` (equality and
prefix clauses only — no suffix clauses there). -/
def setInfoDeletedName (dirName : String) : Bool :=
  let lowerName := lowerS dirName
  lowerName = "deleted" || lowerName = "trash"
    || sStarts lowerName "deleted_" || sStarts lowerName "trash_"

/-- `getSetInfoForExport(dirPath, relativePath, exportRootPath)` without
the memo cache: the cache only ever stores the value computed here
(keyed by directory and export root), and the single later in-place
mutation of `rootSet` is modelled at its use site in
`processDirectory`. -/
def getSetInfoForExport (segs : List String) (relativePath : String) : SetInfoE :=
  let dirName := segs.getLastD ""
  let nm := if dirName = "" then "Root" else dirName
  if setInfoDeletedName dirName then
    { name := nm, relativePath := relativePath, isRootSet := false,
      rootSet := none, isDeleted := true }
  else
    let isRootLevel := segs.length = 1
    { name := nm, relativePath := relativePath, isRootSet := isRootLevel,
      rootSet := if isRootLevel then some dirName else getRootSetForPathExport segs,
      isDeleted := false }

/-- The `noteSetInfo` that `processDirectory` passes to
`processMarkdownFile` for a markdown file whose directory has segment
path `segs` below the export root (`[]` = the vault root itself, which
in the program's single invocation pattern coincides with the export
root): recompute the root set and force it into the set info when
truthy; otherwise keep the set info as computed. -/
def noteSetInfoFor (segs : List String) (relativePath : String) : Option SetInfoE :=
  if segs = [] then none
  else
    let setInfo := getSetInfoForExport segs relativePath
    let rootSet := getRootSetForPathExport segs
    if jsTruthyS rootSet then some { setInfo with rootSet := rootSet }
    else some setInfo

/-! ### The traversal (`processDirectory`) and archive assembly -/

/-- The filesystem-dependent link/image conversions applied to one
markdown file (both are I/O-bound searches; their pure emission tails
are embedded separately above). -/
structure ConvCtx where
  procLinks : String → String
  procImages : String → String

/-- `processMarkdownFile`: link conversion, image conversion, metadata
merge. -/
def processMarkdownFileE (ctx : ConvCtx) (content : String)
    (si : Option SetInfoE) : String :=
  addPageMetadata (ctx.procImages (ctx.procLinks content)) si

/-- The file-emission pass of `processDirectory` (the first loop, over
the partitioned file entries, in listing order). -/
def fileEmits (ctx : ConvCtx) (entries : List Fse) (relativePath : String)
    (segs : List String) : List (String × String) :=
  entries.flatMap (fun e =>
    match e with
    | .dir _ _ => []
    | .file n c =>
      if hiddenName n || isDeletedE (.file n c) then []
      else if !(shouldIncludeFile (fullPathOf segs n) (fun _ => some c)) then []
      else
        let entryRelativePath := joinRel relativePath n
        let sanitizedPath := sanitizePathForLink entryRelativePath
        let ext := lowerS (extname (fullPathOf segs n))
        if ext = ".md" || ext = ".markdown" then
          if n = ".set.md" then []
          else [(sanitizedPath, processMarkdownFileE ctx c (noteSetInfoFor segs relativePath))]
        else [(sanitizedPath, c)])

/-- The subdirectory pass of `processDirectory` (the second loop).  For
each non-skipped subdirectory the body of `processDirectory` is inlined
(its own deleted re-check, its file pass, then this pass again), which
keeps the recursion structural. -/
def subdirEmits (ctx : ConvCtx) : FseList → String → List String → List (String × String)
  | .nil, _, _ => []
  | .cons (.file _ _) es, relativePath, segs => subdirEmits ctx es relativePath segs
  | .cons (.dir n sub) es, relativePath, segs =>
    (if hiddenName n || isDeletedE (.dir n sub) then []
     else
       let subRelativePath := sanitizePathForLink (joinRel relativePath n)
       let subSegs := segs ++ [n]
       if isDeleted n n (fun _ => none) then []
       else fileEmits ctx sub.toList subRelativePath subSegs
             ++ subdirEmits ctx sub subRelativePath subSegs)
      ++ subdirEmits ctx es relativePath segs

/-- `processDirectory(dir, zip, relativePath, exportRootPath)` modelled
as the ordered list of `(name, content)` pairs appended to the archive:
all (included) files of the directory first, then the subdirectories
recursively — both in directory listing order; no sorting occurs
here. -/
def processDirectory (ctx : ConvCtx) (dirName : String) (entries : FseList)
    (relativePath : String) (segs : List String) : List (String × String) :=
  if isDeleted dirName dirName (fun _ => none) then []
  else fileEmits ctx entries.toList relativePath segs
        ++ subdirEmits ctx entries relativePath segs

/-! ### Index outline (`buildFolderStructure`) and the vault set file -/

/-- Insertion sort of entries by name, modelling
`array.sort((a, b) => a.name.localeCompare(b.name))` with the default
locale's collation on ASCII names taken as code-unit order. -/
def insertFse (e : Fse) : List Fse → List Fse
  | [] => [e]
  | x :: xs => if strLtL e.name.data x.name.data then e :: x :: xs else x :: insertFse e xs

def sortFse : List Fse → List Fse
  | [] => []
  | e :: es => insertFse e (sortFse es)

/-- The skip filter shared by `buildFolderStructure` (hidden entries
except `.set.md`, then `.set.md` itself, then deleted entries). -/
def outlineKeep (e : Fse) : Bool :=
  !(sStarts e.name "." && e.name ≠ "." && e.name ≠ ".set.md")
    && e.name ≠ ".set.md" && !isDeletedE e

/-- `buildFolderStructure(dirPath, vaultRootPath, headingLevel, maxDepth,
currentDepth, relativePathPrefix)` over the tree.  `dirSegs` is the
segment path of `dirPath` below `vaultRootPath` (the source computes the
corresponding `path.relative` strings on demand).  The source's
`currentDepth >= maxDepth` guard and `currentDepth + 1` recursion are
represented structurally by the fuel `maxDepth - currentDepth` (zero
exactly when the guard fires, decremented by one exactly when the source
increments `currentDepth`).  Directories (sorted, attachment-named ones
skipped) become headings whose level is derived from their depth below
the vault root, each followed by its recursive outline; then markdown
files (sorted) become list items whose link target is the sanitised
relative path. -/
def buildFolderStructureGo (headingLevel : Nat) :
    Nat → List Fse → List String → String → String
  | 0, _, _, _ => ""
  | fuel + 1, entries, dirSegs, relativePathPrefix =>
    let entries2 := entries.filter outlineKeep
    let directories := sortFse (entries2.filter (fun e => e.isDirE))
    let files := sortFse (entries2.filter (fun e =>
      e.isFileE && shouldIncludeFile (fullPathOf dirSegs e.name)
        (fun _ => match e with | .file _ c => some c | .dir _ _ => none)))
    let dirBlock := String.join (directories.map (fun e =>
      match e with
      | .file _ _ => ""
      | .dir n sub =>
        let ln := lowerS n
        if ln = "attachments" || ln = "attachment" || sStarts ln "attachments_" then ""
        else
          let depth := ((dirSegs ++ [n]).filter (fun p => p ≠ "" && p ≠ ".")).length
          let folderHeadingLevel := min (headingLevel + depth - 1) 6
          let heading := String.mk (List.replicate folderHeadingLevel '#')
          let subRel :=
            if relativePathPrefix ≠ "" then relativePathPrefix ++ "/" ++ n
            else String.intercalate "/" (dirSegs ++ [n])
          heading ++ " " ++ n ++ "\n"
            ++ buildFolderStructureGo headingLevel fuel sub.toList (dirSegs ++ [n]) subRel))
    let fileBlock := String.join (files.map (fun e =>
      match e with
      | .dir _ _ => ""
      | .file n _ =>
        let ext := lowerS (extname n)
        if ext ≠ ".md" && ext ≠ ".markdown" then ""
        else
          let fileRelativePath :=
            if relativePathPrefix ≠ "" then relativePathPrefix ++ "/" ++ n
            else String.intercalate "/" (dirSegs ++ [n])
          let s0 := sanitizePathForLink fileRelativePath
          let s1 :=
            if !(sEnds (lowerS s0) ".md") && !(sEnds (lowerS s0) ".markdown") then
              s0 ++ ext
            else s0
          let sanitizedPath := slashize s1
          let displayName := basenameExt n ext
          "- [" ++ displayName ++ "](" ++ sanitizedPath ++ ")\n"))
    dirBlock ++ fileBlock

def buildFolderStructure (entries : List Fse) (dirSegs : List String)
    (headingLevel maxDepth currentDepth : Nat) (relativePathPrefix : String) : String :=
  buildFolderStructureGo headingLevel (maxDepth - currentDepth) entries dirSegs
    relativePathPrefix

/-- `getFirstMarkdownFile(folderPath)`: the first (listing order)
non-excluded markdown file, descending into subdirectories, as a path
relative to the folder. -/
def getFirstMarkdownFile : FseList → Option String
  | .nil => none
  | .cons (.file n c) es =>
    let ext := lowerS (extname n)
    if (ext = ".md" || ext = ".markdown") && n ≠ ".set.md"
        && !(isDeleted n n (fun _ => some c)) then some n
    else getFirstMarkdownFile es
  | .cons (.dir n sub) es =>
    if !(isDeleted n n (fun _ => none)) then
      match getFirstMarkdownFile sub with
      | some found => some (n ++ "/" ++ found)
      | none => getFirstMarkdownFile es
    else getFirstMarkdownFile es

/-- `firstFile.replace(/\.md$/i, '')`. -/
def stripMdSuffix (s : String) : String :=
  if sEnds (lowerS s) ".md" then sDropRight s 3 else s

/-- A record of a root folder for which no markdown file was found, so
that a placeholder document must be synthesised
(`foldersNeedingEmptyFiles`). -/
structure FolderNeed where
  name : String
  emptyFilePath : String
  emptyFileName : String
deriving DecidableEq

/-- The per-root-folder loop of `createVaultSetFile`: returns the
accumulated outline content and the placeholder records. -/
def createVaultSetFileGo : List (String × FseList) → String × List FolderNeed
  | [] => ("", [])
  | (name, entries) :: more =>
    let rest := createVaultSetFileGo more
    let folderRelativePath := name
    let folderStructure :=
      buildFolderStructure entries.toList [name] 2 10 0 folderRelativePath
    if folderStructure ≠ "" then (folderStructure ++ rest.1, rest.2)
    else
      match getFirstMarkdownFile entries with
      | none =>
        let emptyFileName := name ++ ".md"
        let relativePath := name ++ "/" ++ emptyFileName
        let sanitizedPath := sanitizePathForLink relativePath
        let filePath := slashize
          (if sEnds (lowerS sanitizedPath) ".md"
              || sEnds (lowerS sanitizedPath) ".markdown" then sanitizedPath
           else sanitizedPath ++ ".md")
        ("## " ++ name ++ "\n\n- [" ++ name ++ "](" ++ filePath ++ ")\n\n" ++ rest.1,
         ⟨name, filePath, emptyFileName⟩ :: rest.2)
      | some firstFile =>
        let relativePath := name ++ "/" ++ firstFile
        let sanitizedPath := sanitizePathForLink relativePath
        let filePath := slashize
          (if sEnds (lowerS sanitizedPath) ".md"
              || sEnds (lowerS sanitizedPath) ".markdown" then sanitizedPath
           else sanitizedPath ++ extname firstFile)
        ("## " ++ name ++ "\n\n- [" ++ stripMdSuffix firstFile ++ "](" ++ filePath
            ++ ")\n\n" ++ rest.1,
         rest.2)

/-- `createVaultSetFile(rootFolders)`: the vault set document and the
list of placeholder files to synthesise (returned instead of the
function-property side channel used by the source). -/
def createVaultSetFile (rootFolders : List (String × FseList)) :
    String × List FolderNeed :=
  if rootFolders.isEmpty then
    ("---\ntype: Set\nname: vault\n---\n\n# vault\n\n*No root folders found.*\n", [])
  else
    let go := createVaultSetFileGo rootFolders
    ("---\ntype: \"Set\"\nname: \"vault\"\n---\n\n# vault\n\n" ++ go.1, go.2)

/-- The path of the synthesised placeholder file for root folder
`name`, exactly as computed inside `createVaultSetFile` (the sanitised
`name/name.md`, with the `.md`-suffix guard and backslash
normalisation). -/
def placeholderPathFor (name : String) : String :=
  let sanitizedPath := sanitizePathForLink (name ++ "/" ++ (name ++ ".md"))
  slashize (if sEnds (lowerS sanitizedPath) ".md"
        || sEnds (lowerS sanitizedPath) ".markdown"
      then sanitizedPath else sanitizedPath ++ ".md")

/-- The placeholder document synthesised for a root folder without any
markdown file. -/
def placeholderContent (name : String) : String :=
  "---\ntype: SetLeaf\nset: vault\n---\n\n# " ++ name
    ++ "\n\nThis is the root folder: **" ++ name ++ "**\n"

/-- The root-folder enumeration of `convertToAnytype` (non-hidden,
non-deleted, non-attachments root-level directories; root-level files
are never collected). -/
def rootFoldersOf (vault : List Fse) : List (String × FseList) :=
  vault.filterMap (fun e =>
    match e with
    | .file _ _ => none
    | .dir n sub =>
      if hiddenName n then none
      else if isDeleted n n (fun _ => none) then none
      else
        let ln := lowerS n
        if ln = "attachments" || ln = "attachment" then none
        else some (n, sub))

/-- `convertToAnytype()` on the vault listing, modelled as the ordered
list of archive entries: the vault set file, the synthesised
placeholders, every root folder's traversal, then the root-level
attachments folders' traversals.  The aborting branches (missing root,
no root folders) produce no archive. -/
def convertToAnytype (ctx : ConvCtx) (vault : List Fse) : List (String × String) :=
  let rootFolders := rootFoldersOf vault
  if rootFolders.isEmpty then []
  else
    let vaultSet := createVaultSetFile rootFolders
    [("vault.set.md", vaultSet.1)]
      ++ vaultSet.2.map (fun fn => (fn.emptyFilePath, placeholderContent fn.name))
      ++ rootFolders.flatMap (fun f =>
          processDirectory ctx f.1 f.2 (sanitizePathForLink f.1) [f.1])
      ++ vault.flatMap (fun e =>
          match e with
          | .file _ _ => []
          | .dir n sub =>
            let ln := lowerS n
            if ln = "attachments" || ln = "attachment" || sStarts ln "attachments_" then
              if isDeleted n n (fun _ => none) then []
              else processDirectory ctx n sub (sanitizePathForLink n) [n]
            else [])

/-! ### Claim-side auxiliary notions -/

/-- The literal (code) spans of a text, as (start index, length) pairs:
the successive leftmost matches of the code-span regex — the same
matcher the source uses, which is also the spec's notion of "fenced or
inline literal span". -/
def codeSpansGo (pos : Nat) : Nat → List Char → List (Nat × Nat)
  | 0, _ => []
  | _ + 1, [] => []
  | fuel + 1, c :: cs =>
    match codeMatchAt (c :: cs) with
    | some rest =>
      (pos, (c :: cs).length - rest.length)
        :: codeSpansGo (pos + ((c :: cs).length - rest.length)) fuel rest
    | none => codeSpansGo (pos + 1) fuel cs

def codeSpans (s : List Char) : List (Nat × Nat) := codeSpansGo 0 s.length s

/-- Well-formedness of one rebuilt-frontmatter entry, sufficient for
the serialise/re-match/re-parse round trip: a scalar value; a nonempty,
trimmed key free of colons, newlines and dollar signs that is not a JS
array-index key; a value free of newlines and dollar signs. -/
def entryWF : List Char × FmVal → Bool
  | (k, .str v) =>
    !k.isEmpty && trimL k = k
      && k.all (fun c => c ≠ ':' && c ≠ '\n' && c ≠ dollarC)
      && !isArrayIndexKey k
      && v.all (fun c => c ≠ '\n' && c ≠ dollarC)
  | (_, .tagsObj _) => false

/-- Pairwise-distinct keys (JS objects cannot hold duplicates; this is
the invariant `objInsert` maintains). -/
def keysNodup : FmObj → Bool
  | [] => true
  | e :: rest => !(rest.any (fun f => f.1 = e.1)) && keysNodup rest

/-- Well-formedness of a rebuilt frontmatter object: nonempty, all
entries well-formed, keys distinct. -/
def objWF (o : FmObj) : Bool :=
  !o.isEmpty && o.all entryWF && keysNodup o

/-- The line-shape facts the separator scan needs of each serialised
entry line: nonempty, newline-free, ending in a non-whitespace
character, and not the bare closing delimiter. -/
def lineOK (l : List Char) : Bool :=
  !l.isEmpty && l.all (fun c => c ≠ '\n')
    && !isWsC (l.getLastD ' ') && l ≠ "---".data

/-- The vault listing used against the hierarchy claim: a markdown note
directly under the export root next to one root folder holding a
note. -/
def c4Vault : List Fse :=
  [.file "Note1.md" "root level note",
   .dir "F" (.cons (.file "A.md" "hello") .nil)]

/-- Does `token` occur (as a contiguous substring) at index `i` of `s`? -/
def occursAt (s token : List Char) (i : Nat) : Bool :=
  token.isPrefixOf (s.drop i)

/-- Is the region `[i, i + len)` contained in one of the spans? -/
def insideSpans (spans : List (Nat × Nat)) (i len : Nat) : Bool :=
  spans.any (fun sp => sp.1 ≤ i && i + len ≤ sp.1 + sp.2)

/-- Every occurrence of `token` in `s` lies inside a literal span. -/
def onlyInCodeSpans (s token : List Char) : Bool :=
  (List.range (s.length + 1)).all (fun i =>
    !(occursAt s token i) || insideSpans (codeSpans s) i token.length)

/-- A file named `fileName` (case-insensitively) is reachable in the
tree at depth `k` (the number of directories below the search root on
the way to it), with every entry on the way — the file itself and each
intermediate directory — passing the hidden-name and `isDeleted`
filters of `findFileRecursively`. -/
inductive HasFileAtDepth (fileName : String) : FseList → Nat → Prop where
  | here {entries : FseList} {n c} :
      Fse.file n c ∈ entries.toList →
      (hiddenName n || isDeletedE (.file n c)) = false →
      lowerS n = lowerS fileName →
      HasFileAtDepth fileName entries 0
  | there {entries : FseList} {n sub k} :
      Fse.dir n sub ∈ entries.toList →
      (hiddenName n || isDeletedE (.dir n sub)) = false →
      HasFileAtDepth fileName sub k →
      HasFileAtDepth fileName entries (k + 1)

/-- Claim-side notion for C8: does the subtree contain any markdown
document at all (no exclusion filters)? -/
def treeHasMdDoc : FseList → Bool
  | .nil => false
  | .cons (.file n _) es => (lowerS (extname n) = ".md" || lowerS (extname n) = ".markdown")
      || treeHasMdDoc es
  | .cons (.dir _ sub) es => treeHasMdDoc sub || treeHasMdDoc es

/-- A chain of `k` nested directories named `d` with a file `img.png`
at the bottom — the deep-nesting family used against the resolution
claim. -/
def nestDirs : Nat → FseList
  | 0 => .cons (.file "img.png" "") .nil
  | n + 1 => .cons (.dir "d" (nestDirs n)) .nil

/-- The exclusion predicate in the specification's own wording, for the
refinement claim about `isDeleted`: an entry is excluded iff its *name*
(never an ancestor's) case-insensitively equals `deleted` or `trash`,
or begins with `deleted_` or `trash_`, or ends with `_deleted` or
`_trash`; or, for documents only, its header block declares an explicit
deleted status.  The "declared deleted/trashed status" is modelled from
the spec by the two explicit markers the filter documents: a truthy
`deleted:` field or a `status: deleted` field in the header. -/
def specExcluded (name : String) (isDoc : Bool) (content : Option String) : Bool :=
  let n := lowerS name
  (n = "deleted" || n = "trash")
    || (sStarts n "deleted_" || sStarts n "trash_")
    || (sEnds n "_deleted" || sEnds n "_trash")
    || (isDoc &&
        match content with
        | some c => fmDeclaresDeleted c
        | none => false)

/-- Is this (lower-cased) extension the document extension? -/
def isDocExt (ext : String) : Bool :=
  lowerS ext = ".md" || lowerS ext = ".markdown"

/-! ## Theorems

First a collection of shared helper lemmas, then one theorem per claim
(with its witness or counterexample where required). -/

theorem collapseWsAux_no_ws {u : Char} (hu : isWsC u = false) :
    ∀ (b : Bool) (l : List Char), ∀ c ∈ collapseWsAux u b l, isWsC c = false := by
  intro b l
  induction l generalizing b with
  | nil => intro c hc; simp [collapseWsAux] at hc
  | cons a as ih =>
    intro c hc
    simp only [collapseWsAux] at hc
    by_cases ha : isWsC a = true
    · rw [if_pos ha] at hc
      rcases List.mem_append.mp hc with h | h
      · split at h
        · simp at h
        · simp at h; subst h; exact hu
      · exact ih _ _ h
    · rw [if_neg ha] at hc
      rcases List.mem_cons.mp hc with h | h
      · subst h; simpa using ha
      · exact ih _ _ h

theorem collapseWsAux_id {u : Char} :
    ∀ (b : Bool) (l : List Char), (∀ c ∈ l, isWsC c = false) → collapseWsAux u b l = l := by
  intro b l
  induction l generalizing b with
  | nil => intro _; rfl
  | cons a as ih =>
    intro h
    have ha := h a (by simp)
    simp only [collapseWsAux, ha]
    simp only [Bool.false_eq_true, if_false]
    rw [ih false (fun c hc => h c (by simp [hc]))]

theorem collapseWsAux_mem {u : Char} :
    ∀ (b : Bool) (l : List Char), ∀ c ∈ collapseWsAux u b l, c = u ∨ c ∈ l := by
  intro b l
  induction l generalizing b with
  | nil => intro c hc; simp [collapseWsAux] at hc
  | cons a as ih =>
    intro c hc
    simp only [collapseWsAux] at hc
    split at hc
    · rcases List.mem_append.mp hc with h | h
      · split at h
        · simp at h
        · simp at h; exact Or.inl h
      · rcases ih _ _ h with h1 | h1
        · exact Or.inl h1
        · exact Or.inr (by simp [h1])
    · rcases List.mem_cons.mp hc with h | h
      · exact Or.inr (by simp [h])
      · rcases ih _ _ h with h1 | h1
        · exact Or.inl h1
        · exact Or.inr (by simp [h1])

theorem splitOnC_ne_nil (c : Char) (l : List Char) : splitOnC c l ≠ [] := by
  cases l with
  | nil => simp [splitOnC]
  | cons a as =>
    simp only [splitOnC]
    split
    · simp
    · split <;> simp

theorem mem_splitOnC_not_mem {c : Char} :
    ∀ {l : List Char}, ∀ p ∈ splitOnC c l, c ∉ p := by
  intro l
  induction l with
  | nil => intro p hp; simp only [splitOnC, List.mem_singleton] at hp; simp [hp]
  | cons a as ih =>
    intro p hp
    simp only [splitOnC] at hp
    split at hp
    · rcases List.mem_cons.mp hp with h | h
      · simp [h]
      · exact ih p h
    · rename_i hne
      rcases hsp : splitOnC c as with _ | ⟨h0, t0⟩
      · exact absurd hsp (splitOnC_ne_nil c as)
      · rw [hsp] at hp
        rcases List.mem_cons.mp hp with h | h
        · subst h
          intro hmem
          rcases List.mem_cons.mp hmem with h1 | h1
          · exact hne h1.symm
          · exact ih h0 (by simp [hsp]) h1
        · exact ih p (by simp [hsp, h])

theorem splitOnC_no_sep {c : Char} {l : List Char} (h : c ∉ l) :
    splitOnC c l = [l] := by
  induction l with
  | nil => rfl
  | cons a as ih =>
    simp only [splitOnC]
    rw [if_neg (by intro he; exact h (by simp [he]))]
    rw [ih (by intro hm; exact h (by simp [hm]))]

theorem splitOnC_append_sep {c : Char} {p rest : List Char} (h : c ∉ p) :
    splitOnC c (p ++ c :: rest) = p :: splitOnC c rest := by
  induction p with
  | nil => simp [splitOnC]
  | cons a as ih =>
    simp only [List.cons_append, splitOnC, List.append_eq]
    rw [if_neg (by intro he; exact h (by simp [he]))]
    rw [ih (by intro hm; exact h (by simp [hm]))]

theorem splitOnC_intercalate {c : Char} :
    ∀ (parts : List (List Char)), parts ≠ [] → (∀ p ∈ parts, c ∉ p) →
    splitOnC c (List.intercalate [c] parts) = parts := by
  intro parts
  induction parts with
  | nil => intro h; exact absurd rfl h
  | cons p ps ih =>
    intro _ hall
    cases ps with
    | nil =>
      have hone : List.intercalate [c] [p] = p := by simp [List.intercalate]
      rw [hone]
      exact splitOnC_no_sep (hall p (by simp))
    | cons q qs =>
      have hip : List.intercalate [c] (p :: q :: qs) = p ++ c :: List.intercalate [c] (q :: qs) := by
        simp [List.intercalate, List.intersperse]
      rw [hip, splitOnC_append_sep (hall p (by simp))]
      rw [ih (by simp) (fun r hr => hall r (by simp [List.mem_cons] at hr ⊢; tauto))]

theorem map_slash_id {l : List Char} (h : bslC ∉ l) :
    l.map (fun c => if c = bslC then '/' else c) = l := by
  induction l with
  | nil => rfl
  | cons a as ih =>
    simp only [List.map_cons]
    rw [if_neg (by intro he; exact h (by simp [he]))]
    rw [ih (by intro hm; exact h (by simp [hm]))]

theorem mem_of_mem_splitOnC {c : Char} :
    ∀ {l : List Char}, ∀ p ∈ splitOnC c l, ∀ x ∈ p, x ∈ l := by
  intro l
  induction l with
  | nil =>
    intro p hp x hx
    simp only [splitOnC, List.mem_singleton] at hp
    subst hp; simp at hx
  | cons a as ih =>
    intro p hp x hx
    simp only [splitOnC] at hp
    split at hp
    · rcases List.mem_cons.mp hp with h | h
      · subst h; simp at hx
      · exact List.mem_cons_of_mem _ (ih p h x hx)
    · rcases hsp : splitOnC c as with _ | ⟨h0, t0⟩
      · exact absurd hsp (splitOnC_ne_nil c as)
      · rw [hsp] at hp
        rcases List.mem_cons.mp hp with h | h
        · subst h
          rcases List.mem_cons.mp hx with h1 | h1
          · simp [h1]
          · exact List.mem_cons_of_mem _ (ih h0 (by simp [hsp]) x h1)
        · exact List.mem_cons_of_mem _ (ih p (by simp [hsp, h]) x hx)

theorem mem_intercalate_single {c : Char} :
    ∀ {parts : List (List Char)}, ∀ x ∈ List.intercalate [c] parts,
      x = c ∨ ∃ p ∈ parts, x ∈ p := by
  intro parts
  induction parts with
  | nil => intro x hx; simp [List.intercalate] at hx
  | cons p ps ih =>
    intro x hx
    cases ps with
    | nil =>
      have hone : List.intercalate [c] [p] = p := by simp [List.intercalate]
      rw [hone] at hx
      exact Or.inr ⟨p, by simp, hx⟩
    | cons q qs =>
      have hip : List.intercalate [c] (p :: q :: qs)
          = p ++ c :: List.intercalate [c] (q :: qs) := by
        simp [List.intercalate, List.intersperse]
      rw [hip] at hx
      rcases List.mem_append.mp hx with h | h
      · exact Or.inr ⟨p, by simp, h⟩
      · rcases List.mem_cons.mp h with h1 | h1
        · exact Or.inl h1
        · rcases ih x h1 with h2 | ⟨r, hr, hxr⟩
          · exact Or.inl h2
          · exact Or.inr ⟨r, by simp [List.mem_cons] at hr ⊢; tauto, hxr⟩

theorem bsl_not_mem_normalized (l : List Char) :
    bslC ∉ l.map (fun c => if c = bslC then '/' else c) := by
  intro h
  rcases List.mem_map.mp h with ⟨c, _, hc⟩
  by_cases hcb : c = bslC
  · rw [if_pos hcb] at hc
    exact absurd hc (by decide)
  · rw [if_neg hcb] at hc
    exact hcb hc

/-- `sanitizePathForLink` is idempotent: its output contains no
backslash and no whitespace inside any segment, so sanitising again
changes nothing. -/
theorem sanitizeL_idem (l : List Char) : sanitizeL (sanitizeL l) = sanitizeL l := by
  conv_lhs => rw [sanitizeL]
  have husc : isWsC '_' = false := by decide
  -- characters of the first pass's output
  have hmem : ∀ x ∈ sanitizeL l, (isWsC x = false ∨ x = '/') ∧ x ≠ bslC := by
    intro x hx
    unfold sanitizeL at hx
    rcases mem_intercalate_single x hx with h | ⟨p, hp, hxp⟩
    · subst h; exact ⟨Or.inr rfl, by decide⟩
    · rcases List.mem_map.mp hp with ⟨p0, hp0, hpc⟩
      subst hpc
      rcases collapseWsAux_mem _ _ x hxp with h1 | h1
      · subst h1; exact ⟨Or.inl husc, by decide⟩
      · constructor
        · exact Or.inl (collapseWsAux_no_ws husc _ _ x hxp)
        · intro hb; subst hb
          exact bsl_not_mem_normalized l (mem_of_mem_splitOnC p0 hp0 _ h1)
  have hnb : bslC ∉ sanitizeL l := by
    intro h; exact absurd rfl (hmem _ h).2
  rw [show (sanitizeL l).map (fun c => if c = bslC then '/' else c) = sanitizeL l from
    map_slash_id hnb]
  -- the split of the first pass's output gives back its parts
  have hparts : splitOnC '/' (sanitizeL l)
      = (splitOnC '/' (l.map (fun c => if c = bslC then '/' else c))).map
          (collapseWsL '_') := by
    unfold sanitizeL
    apply splitOnC_intercalate
    · simp [splitOnC_ne_nil]
    · intro p hp hcp
      rcases List.mem_map.mp hp with ⟨p0, hp0, hpc⟩
      subst hpc
      rcases collapseWsAux_mem _ _ _ hcp with h1 | h1
      · exact absurd h1 (by decide)
      · exact mem_splitOnC_not_mem p0 hp0 h1
  rw [hparts]
  have hcoll : ∀ p0 ∈ splitOnC '/' (l.map (fun c => if c = bslC then '/' else c)),
      collapseWsL '_' (collapseWsL '_' p0) = collapseWsL '_' p0 := by
    intro p0 _
    exact collapseWsAux_id _ _ (fun c hc => collapseWsAux_no_ws husc _ _ c hc)
  rw [List.map_map]
  have : ((splitOnC '/' (l.map (fun c => if c = bslC then '/' else c))).map
      (collapseWsL '_' ∘ collapseWsL '_'))
      = (splitOnC '/' (l.map (fun c => if c = bslC then '/' else c))).map
          (collapseWsL '_') := by
    apply List.map_congr_left
    intro p0 hp0
    exact hcoll p0 hp0
  rw [this]
  rfl

theorem sanitizePathForLink_idem (s : String) :
    sanitizePathForLink (sanitizePathForLink s) = sanitizePathForLink s := by
  unfold sanitizePathForLink
  rw [show (String.mk (sanitizeL s.data)).data = sanitizeL s.data from rfl]
  rw [sanitizeL_idem]

theorem bsl_not_mem_sanitizeL (l : List Char) : bslC ∉ sanitizeL l := by
  intro hx
  unfold sanitizeL at hx
  rcases mem_intercalate_single _ hx with h | ⟨p, hp, hxp⟩
  · exact absurd h (by decide)
  · rcases List.mem_map.mp hp with ⟨p0, hp0, hpc⟩
    subst hpc
    rcases collapseWsAux_mem _ _ _ hxp with h1 | h1
    · exact absurd h1 (by decide)
    · exact bsl_not_mem_normalized l (mem_of_mem_splitOnC p0 hp0 _ h1)

/-- The backslash-normalisation the source re-applies after sanitising
is the identity on sanitised paths. -/
theorem slashizeL_sanitizeL (l : List Char) :
    slashizeL (sanitizeL l) = sanitizeL l := by
  unfold slashizeL
  exact map_slash_id (bsl_not_mem_sanitizeL l)

/-! ### Claim C1 -/

/-- **C1.**  The claim — the central consistency invariant: every
emitted link target is byte-identical to the corresponding archive
entry name, both being the sanitisation of the same source-relative
path — is violated by the code for wiki-link resolution, which emits
the resolved vault-relative path *unsanitised*.  Concretely, for the
vault containing `A/Draft Plan.md` and a note referencing
`[[Draft Plan|Plan]]` (which the source's search resolves to that file,
so that `path.relative(vaultPath, foundPath)` is `A/Draft Plan.md`):
the archive stores the entry `A/Draft_Plan.md`, the emitted link is
`[Plan](A/Draft Plan.md)`, and the emitted target names no entry of the
archive.  (The spec's own Example 1 expects `[Plan](A/Draft_Plan.md)`
here.) -/
theorem c1_wiki_link_target_vs_archive_entry :
    (convertToAnytype ⟨id, id⟩
        [.dir "A" (.cons (.file "Draft Plan.md" "h") .nil)]).map Prod.fst
      = ["vault.set.md", "A/Draft_Plan.md"]
    ∧ convertObsidianLinks
        (fun n => if n = "Draft Plan" then some "A/Draft Plan.md" else none)
        ("[[Draft Plan|Plan]]".data)
      = "[Plan](A/Draft Plan.md)".data
    ∧ "A/Draft Plan.md"
        ∉ (convertToAnytype ⟨id, id⟩
            [.dir "A" (.cons (.file "Draft Plan.md" "h") .nil)]).map Prod.fst
    ∧ sanitizePathForLink "A/Draft Plan.md" = "A/Draft_Plan.md" :=
  ⟨rfl, rfl, by decide, rfl⟩

/-! ### Claim C5 -/

/-- **C5.**  The claim — a tag-shaped token appearing only inside
fenced or inline literal spans is never extracted — is violated by the
code.  For a document that consists of a single inline code span
containing `#hidden`, the gap list built by the code-span loop is
empty, so `extractTags` falls back to scanning the *raw* content and
extracts `hidden`, although every occurrence of `#hidden` in the text
lies inside a literal span. -/
theorem c5_tag_only_inside_code_span_is_extracted :
    extractTags "`#hidden`" = ["hidden"]
      ∧ onlyInCodeSpans ("`#hidden`".data) ("#hidden".data) = true := by
  exact ⟨rfl, rfl⟩

/-! ### Claim C6 -/

/-- **C6 (counterexample).**  The claim says every unresolved reference
is emitted with a sanitised target (the sanitised relative path, or the
sanitised original reference text unchanged).  For the unresolved
wiki-link `[[My  Note]]` the emitted target is `My Note.md`: whitespace
runs collapsed to single *spaces* with `.md` appended — not a fixed
point of sanitisation (which yields `My_Note.md`), and not the original
reference text either. -/
theorem c6_unresolved_wiki_target_not_sanitized :
    convertObsidianLinks (fun _ => none) ("[[My  Note]]".data)
        = "[My  Note](My Note.md)".data
      ∧ sanitizePathForLink "My Note.md" ≠ "My Note.md"
      ∧ ("My Note.md" : String) ≠ "My  Note"
      ∧ sanitizePathForLink "My  Note" = "My_Note" :=
  ⟨rfl, by decide, by decide, rfl⟩

/-- **C6 (amended).**  Unresolved references never fail the conversion
(the emission functions are total); for unresolved *embeds* the emitted
target is the sanitised best-effort path — sanitisation-idempotent, so
genuinely "sanitised" — while for unresolved *wiki links* the emitted
target is the reference text with whitespace runs collapsed to single
spaces plus `.md`, with no sanitisation applied. -/
theorem c6_unresolved_reference_emission :
    (∀ imagePathToUse imagePath : List Char,
        imageNotFoundEmit imagePathToUse imagePath
            = "![".data ++ basenameL imagePath ++ "](".data
                ++ sanitizeL imagePathToUse ++ [')']
          ∧ sanitizeL (sanitizeL imagePathToUse) = sanitizeL imagePathToUse)
      ∧ ∀ (resolve : String → Option String) (linkContent : List Char),
          resolve (String.mk (trimL ((splitOnC '|' linkContent).getD 0 []))) = none →
          wikiReplacer resolve linkContent
            = ['['] ++ (if (splitOnC '|' linkContent).getD 1 [] ≠ []
                  then trimL ((splitOnC '|' linkContent).getD 1 [])
                  else trimL ((splitOnC '|' linkContent).getD 0 []))
                ++ "](".data
                ++ collapseWsL ' ' (trimL ((splitOnC '|' linkContent).getD 0 []))
                ++ ".md)".data := by
  constructor
  · intro p img
    constructor
    · unfold imageNotFoundEmit
      rw [slashizeL_sanitizeL]
    · exact sanitizeL_idem p
  · intro resolve linkContent h
    unfold wikiReplacer
    dsimp only
    rw [h]
    simp [List.append_assoc]

/-- Witness for `c6_unresolved_reference_emission` at concrete inputs:
an unresolved embed of `img 1.png` and the unresolved wiki reference
`My  Note`. -/
theorem c6_unresolved_reference_emission_witness :
    imageNotFoundEmit ("img 1.png".data) ("img 1.png".data)
        = "![img 1.png](img_1.png)".data
      ∧ wikiReplacer (fun _ => none) ("My  Note".data)
        = "[My  Note](My Note.md)".data := by
  constructor
  · rw [(c6_unresolved_reference_emission.1 ("img 1.png".data) ("img 1.png".data)).1]
    rfl
  · rw [c6_unresolved_reference_emission.2 (fun _ => none) ("My  Note".data) rfl]
    rfl

/-! ### Claim C10 -/

/-- **C10.**  For every standard markdown image reference
`![alt](target)` whose target begins with `http://`, `https://` or
`data:`, the replacer of `convertImages`' second pass returns the
entire match unchanged — whatever the filesystem-dependent fallback
would compute — so remote and data-URI references are never resolved,
rewritten or sanitised. -/
theorem c10_remote_image_refs_unchanged
    (fallback : List Char → List Char → List Char) (alt tgt : List Char)
    (h : (("http://".data).isPrefixOf tgt || ("https://".data).isPrefixOf tgt
      || ("data:".data).isPrefixOf tgt) = true) :
    mdImageReplacer fallback alt tgt = "![".data ++ alt ++ "](".data ++ tgt ++ [')'] := by
  unfold mdImageReplacer
  rw [if_pos h]

/-- Witness for `c10_remote_image_refs_unchanged`: a remote reference,
with a fallback that would mangle it if it were consulted. -/
theorem c10_remote_image_refs_unchanged_witness :
    (("http://".data).isPrefixOf ("http://e/p.png".data)
        || ("https://".data).isPrefixOf ("http://e/p.png".data)
        || ("data:".data).isPrefixOf ("http://e/p.png".data)) = true
      ∧ mdImageReplacer (fun _ _ => "MANGLED".data) ("alt".data) ("http://e/p.png".data)
          = "![alt](http://e/p.png)".data := by
  refine ⟨by decide, ?_⟩
  rw [c10_remote_image_refs_unchanged (fun _ _ => "MANGLED".data) ("alt".data)
    ("http://e/p.png".data) (by decide)]
  rfl

/-! ### Claim C7 -/

/-- **C7 (counterexample).**  `processDirectory` applies no sorting:
with the listing `[b.md, a.md]` the archive receives `F/b.md` before
`F/a.md`, although `a.md` name-sorts first — so entries are processed
in directory-listing order, not name-sorted order, and the archive is
only reproducible relative to a fixed listing order. -/
theorem c7_not_name_sorted :
    (processDirectory ⟨id, id⟩ "F"
        (.cons (.file "b.md" "x") (.cons (.file "a.md" "y") .nil)) "F" ["F"]).map Prod.fst
      = ["F/b.md", "F/a.md"]
    ∧ strLtL "F/a.md".data "F/b.md".data = true :=
  ⟨rfl, by decide⟩

/-- **C7 (amended).**  For every traversed directory, `processDirectory`
emits all of the directory's (included) files — in listing order —
before anything from its subdirectories: the emission list is exactly
the file pass followed by the subdirectory pass, and every included
file of the directory has its archive entry inside the file pass. -/
theorem c7_files_before_subdirectories (ctx : ConvCtx) (dirName : String)
    (entries : FseList) (relativePath : String) (segs : List String)
    (hnd : isDeleted dirName dirName (fun _ => none) = false) :
    processDirectory ctx dirName entries relativePath segs
      = fileEmits ctx entries.toList relativePath segs
          ++ subdirEmits ctx entries relativePath segs
    ∧ ∀ n c, Fse.file n c ∈ entries.toList →
        (hiddenName n || isDeletedE (.file n c)) = false →
        shouldIncludeFile (fullPathOf segs n) (fun _ => some c) = true →
        n ≠ ".set.md" →
        sanitizePathForLink (joinRel relativePath n)
          ∈ (fileEmits ctx entries.toList relativePath segs).map Prod.fst := by
  constructor
  · simp [processDirectory, hnd]
  · intro n c hmem hskip hinc hset
    apply List.mem_map.mpr
    unfold fileEmits
    by_cases hmd : lowerS (extname (fullPathOf segs n)) = ".md"
    · refine ⟨(sanitizePathForLink (joinRel relativePath n),
        processMarkdownFileE ctx c (noteSetInfoFor segs relativePath)), ?_, rfl⟩
      apply List.mem_flatMap.mpr
      refine ⟨.file n c, hmem, ?_⟩
      simp [hskip, hinc, hset, hmd]
    · by_cases hmd2 : lowerS (extname (fullPathOf segs n)) = ".markdown"
      · refine ⟨(sanitizePathForLink (joinRel relativePath n),
          processMarkdownFileE ctx c (noteSetInfoFor segs relativePath)), ?_, rfl⟩
        apply List.mem_flatMap.mpr
        refine ⟨.file n c, hmem, ?_⟩
        simp [hskip, hinc, hset, hmd, hmd2]
      · refine ⟨(sanitizePathForLink (joinRel relativePath n), c), ?_, rfl⟩
        apply List.mem_flatMap.mpr
        refine ⟨.file n c, hmem, ?_⟩
        simp [hskip, hinc, hmd, hmd2]

/-- Witness for `c7_files_before_subdirectories` on a concrete
directory. -/
theorem c7_files_before_subdirectories_witness :
    isDeleted "F" "F" (fun _ => none) = false
    ∧ processDirectory ⟨id, id⟩ "F" (.cons (.file "b.md" "x") .nil) "F" ["F"]
        = fileEmits ⟨id, id⟩ [.file "b.md" "x"] "F" ["F"]
            ++ subdirEmits ⟨id, id⟩ (.cons (.file "b.md" "x") .nil) "F" ["F"]
    ∧ sanitizePathForLink (joinRel "F" "b.md")
        ∈ (fileEmits ⟨id, id⟩ [.file "b.md" "x"] "F" ["F"]).map Prod.fst := by
  have h := c7_files_before_subdirectories ⟨id, id⟩ "F"
    (.cons (.file "b.md" "x") .nil) "F" ["F"] rfl
  refine ⟨rfl, h.1, ?_⟩
  exact h.2 "b.md" "x" (List.mem_cons_self _ _) rfl rfl (by decide)

/-! ### Claim C8 -/

/-- **C8 (counterexample).**  A root container with an empty
subdirectory has no documents anywhere beneath it, yet the outline it
produces is non-empty (the subdirectory's heading), so no placeholder
is synthesised and the archive contains no entry for the container at
all — the container resolves to no navigable entry. -/
theorem c8_empty_subdir_no_placeholder :
    treeHasMdDoc (.cons (.dir "sub" .nil) .nil) = false
    ∧ (createVaultSetFile [("F", .cons (.dir "sub" .nil) .nil)]).2 = []
    ∧ (convertToAnytype ⟨id, id⟩ [.dir "F" (.cons (.dir "sub" .nil) .nil)]).map Prod.fst
        = ["vault.set.md"] :=
  ⟨rfl, rfl, rfl⟩

theorem mem_of_mem_insertFse {x e : Fse} :
    ∀ {l : List Fse}, x ∈ insertFse e l → x = e ∨ x ∈ l := by
  intro l
  induction l with
  | nil => intro h; simp [insertFse] at h; exact Or.inl h
  | cons a as ih =>
    intro h
    simp only [insertFse] at h
    split at h
    · rcases List.mem_cons.mp h with h1 | h1
      · exact Or.inl h1
      · exact Or.inr h1
    · rcases List.mem_cons.mp h with h1 | h1
      · exact Or.inr (by simp [h1])
      · rcases ih h1 with h2 | h2
        · exact Or.inl h2
        · exact Or.inr (by simp [h2])

theorem mem_of_mem_sortFse {x : Fse} :
    ∀ {l : List Fse}, x ∈ sortFse l → x ∈ l := by
  intro l
  induction l with
  | nil => intro h; simp [sortFse] at h
  | cons a as ih =>
    intro h
    simp only [sortFse] at h
    rcases mem_of_mem_insertFse h with h1 | h1
    · simp [h1]
    · exact List.mem_cons_of_mem _ (ih h1)

theorem string_join_all_empty :
    ∀ (l : List String), (∀ x ∈ l, x = "") → String.join l = "" := by
  have aux : ∀ (l : List String) (acc : String), (∀ x ∈ l, x = "") →
      l.foldl (fun r s => r ++ s) acc = acc := by
    intro l
    induction l with
    | nil => intro acc _; rfl
    | cons a as ih =>
      intro acc h
      have ha := h a (by simp)
      subst ha
      simp only [List.foldl_cons]
      rw [show acc ++ "" = acc from by simp]
      exact ih acc (fun x hx => h x (by simp [hx]))
  intro l h
  exact aux l "" h

/-- A directory listing with no subdirectories and no markdown files
produces an empty outline, at any fuel, heading level, segment path and
prefix. -/
theorem buildFolderStructureGo_empty (entries : List Fse)
    (h5 : ∀ e ∈ entries, e.isDirE = false)
    (h6 : ∀ e ∈ entries, (lowerS (extname e.name) = ".md"
      || lowerS (extname e.name) = ".markdown") = false) :
    ∀ (headingLevel fuel : Nat) (dirSegs : List String) (pfx : String),
      buildFolderStructureGo headingLevel fuel entries dirSegs pfx = "" := by
  intro hl fuel dirSegs pfx
  cases fuel with
  | zero => rfl
  | succ f =>
    unfold buildFolderStructureGo
    dsimp only
    have hdirs : (entries.filter outlineKeep).filter (fun e => e.isDirE) = [] := by
      rw [List.filter_eq_nil]
      intro e he
      have := h5 e (List.mem_of_mem_filter he)
      simp [this]
    rw [hdirs]
    have hfiles : String.join
        ((sortFse ((entries.filter outlineKeep).filter (fun e =>
            e.isFileE && shouldIncludeFile (fullPathOf dirSegs e.name)
              (fun _ => match e with | .file _ c => some c | .dir _ _ => none)))).map
          (fun e =>
            match e with
            | .dir _ _ => ""
            | .file n _ =>
              let ext := lowerS (extname n)
              if ext ≠ ".md" && ext ≠ ".markdown" then ""
              else
                let fileRelativePath :=
                  if pfx ≠ "" then pfx ++ "/" ++ n
                  else String.intercalate "/" (dirSegs ++ [n])
                let s0 := sanitizePathForLink fileRelativePath
                let s1 :=
                  if !(sEnds (lowerS s0) ".md") && !(sEnds (lowerS s0) ".markdown") then
                    s0 ++ ext
                  else s0
                let sanitizedPath := slashize s1
                let displayName := basenameExt n ext
                "- [" ++ displayName ++ "](" ++ sanitizedPath ++ ")\n")) = "" := by
      apply string_join_all_empty
      intro x hx
      rcases List.mem_map.mp hx with ⟨e, he, hex⟩
      have hee : e ∈ entries :=
        List.mem_of_mem_filter (List.mem_of_mem_filter (mem_of_mem_sortFse he))
      cases e with
      | dir d sub => exact hex.symm
      | file n c =>
        have h := h6 _ hee
        simp only [Fse.name] at h
        rw [← hex]
        have hcond : (lowerS (extname n) ≠ ".md" && lowerS (extname n) ≠ ".markdown") = true := by
          rcases Bool.or_eq_false_iff.mp h with ⟨ha, hb⟩
          simp [ha, hb]
        simp only [hcond, if_true]
    rw [show sortFse [] = [] from rfl, List.map_nil,
      show String.join [] = "" from rfl]
    rw [hfiles]
    rfl

/-- A listing with no subdirectories and no markdown files has no first
markdown file. -/
theorem getFirstMarkdownFile_none :
    ∀ (entries : FseList),
      (∀ e ∈ entries.toList, e.isDirE = false) →
      (∀ e ∈ entries.toList, (lowerS (extname e.name) = ".md"
        || lowerS (extname e.name) = ".markdown") = false) →
      getFirstMarkdownFile entries = none
  | .nil, _, _ => rfl
  | .cons (.file n c) es, h5, h6 => by
    have h := h6 (.file n c) (by simp [FseList.toList])
    simp only [Fse.name] at h
    simp only [getFirstMarkdownFile, h]
    simp only [Bool.false_and, Bool.false_eq_true, if_false]
    exact getFirstMarkdownFile_none es
      (fun e he => h5 e (by simp [FseList.toList, he]))
      (fun e he => h6 e (by simp [FseList.toList, he]))
  | .cons (.dir n sub) es, h5, h6 => by
    have := h5 (.dir n sub) (by simp [FseList.toList])
    simp [Fse.isDirE] at this

/-- **C8 (amended).**  A placeholder is synthesised exactly when the
root container's outline is empty and it contains no markdown file; in
particular, for a root container whose listing has no subdirectories
and no markdown files, the placeholder document is synthesised,
appended to the archive, and linked from the top-level index.  (The
original claim fails for containers whose outline is non-empty despite
containing no documents — see the counterexample.) -/
theorem c8_placeholder_for_documentless_root (ctx : ConvCtx)
    (name : String) (entries : FseList)
    (h1 : hiddenName name = false)
    (h2 : isDeleted name name (fun _ => none) = false)
    (h3 : lowerS name ≠ "attachments") (h4 : lowerS name ≠ "attachment")
    (h5 : ∀ e ∈ entries.toList, e.isDirE = false)
    (h6 : ∀ e ∈ entries.toList, (lowerS (extname e.name) = ".md"
      || lowerS (extname e.name) = ".markdown") = false) :
    ∃ fp : String,
      (createVaultSetFile [(name, entries)]).2
          = [⟨name, fp, name ++ ".md"⟩]
      ∧ (fp, placeholderContent name) ∈ convertToAnytype ctx [.dir name entries]
      ∧ ∃ pre post : String, (createVaultSetFile [(name, entries)]).1
          = pre ++ ("## " ++ name ++ "\n\n- [" ++ name ++ "](" ++ fp ++ ")\n\n") ++ post := by
  have hbuild : buildFolderStructure entries.toList [name] 2 10 0 name = "" := by
    unfold buildFolderStructure
    exact buildFolderStructureGo_empty entries.toList h5 h6 2 (10 - 0) [name] name
  have hfirst : getFirstMarkdownFile entries = none :=
    getFirstMarkdownFile_none entries h5 h6
  have hgo : createVaultSetFileGo [(name, entries)]
      = ("## " ++ name ++ "\n\n- [" ++ name ++ "](" ++ placeholderPathFor name
            ++ ")\n\n" ++ "",
         [⟨name, placeholderPathFor name, name ++ ".md"⟩]) := by
    unfold createVaultSetFileGo
    dsimp only
    rw [show createVaultSetFileGo [] = ("", []) from rfl, hbuild, hfirst]
    simp [placeholderPathFor]
  set fp := placeholderPathFor name with hfpdef
  have hroot : rootFoldersOf [.dir name entries] = [(name, entries)] := by
    simp [rootFoldersOf, h1, h2, h3, h4]
  have hvs : createVaultSetFile [(name, entries)]
      = ("---\ntype: \"Set\"\nname: \"vault\"\n---\n\n# vault\n\n"
            ++ ("## " ++ name ++ "\n\n- [" ++ name ++ "](" ++ fp ++ ")\n\n" ++ ""),
         [⟨name, fp, name ++ ".md"⟩]) := by
    unfold createVaultSetFile
    rw [if_neg (by simp), hgo]
  refine ⟨fp, ?_, ?_, ?_⟩
  · rw [hvs]
  · unfold convertToAnytype
    rw [hroot]
    dsimp only
    rw [if_neg (by simp), hvs]
    apply List.mem_append.mpr
    apply Or.inl
    apply List.mem_append.mpr
    apply Or.inl
    apply List.mem_cons.mpr
    apply Or.inr
    simp
  · refine ⟨"---\ntype: \"Set\"\nname: \"vault\"\n---\n\n# vault\n\n", "", ?_⟩
    rw [hvs]
    simp

/-- Witness for `c8_placeholder_for_documentless_root`: the root folder
`G` containing only an attachment. -/
theorem c8_placeholder_witness :
    (createVaultSetFile [("G", .cons (.file "pic.png" "p") .nil)]).2
        = [⟨"G", "G/G.md", "G.md"⟩]
    ∧ ("G/G.md", placeholderContent "G")
        ∈ convertToAnytype ⟨id, id⟩ [.dir "G" (.cons (.file "pic.png" "p") .nil)] := by
  obtain ⟨fp, hneeds, hmem, _⟩ := c8_placeholder_for_documentless_root ⟨id, id⟩ "G"
    (.cons (.file "pic.png" "p") .nil) rfl rfl (by decide) (by decide)
    (by decide) (by decide)
  have hconc : (createVaultSetFile [("G", FseList.cons (.file "pic.png" "p") .nil)]).2
      = [⟨"G", "G/G.md", "G.md"⟩] := rfl
  have hfp : fp = "G/G.md" := by
    have h12 := hneeds.symm.trans hconc
    have := congrArg (fun l => (l.headD ⟨"", "", ""⟩).emptyFilePath) h12
    simpa using this
  rw [hfp] at hneeds hmem
  exact ⟨hneeds, hmem⟩

/-! ### Claim C3 -/

/-- **C3 (counterexample).**  The last-resort search of the resolution
chain (`findFileRecursively(vaultPath, fileName, 10, 0)`, convertImages
lines 295-301) is depth-bounded, not unbounded: a file nested below ten
directories exists under the export root — reachable, at depth 10, with
every entry passing the hidden/deleted filters — yet the search
reports not found (a bound of 11 would find it).  Since every earlier
strategy of the chain is bounded at most as generously, resolution
reports "not found" for such a target, contradicting the claim's "at
any nesting depth". -/
theorem c3_deep_file_not_found :
    findFileRecursively (nestDirs 10) "vault" "img.png" 10 0 = none
    ∧ HasFileAtDepth "img.png" (nestDirs 10) 10
    ∧ findFileRecursively (nestDirs 10) "vault" "img.png" 11 0 ≠ none := by
  have key : ∀ k, HasFileAtDepth "img.png" (nestDirs k) k := by
    intro k
    induction k with
    | zero =>
      exact @HasFileAtDepth.here "img.png" (nestDirs 0) "img.png" ""
        (by simp [nestDirs, FseList.toList]) (by decide) rfl
    | succ n ih =>
      exact @HasFileAtDepth.there "img.png" (nestDirs (n + 1)) "d" (nestDirs n) n
        (by simp [nestDirs, FseList.toList]) rfl ih
  exact ⟨rfl, key 10, by decide⟩

theorem findFileRecursively_cons_file (n c : String) (es : FseList)
    (searchDir fileName : String) (maxDepth currentDepth : Nat)
    (hlt : currentDepth < maxDepth) :
    findFileRecursively (.cons (.file n c) es) searchDir fileName maxDepth currentDepth
    = (if hiddenName n || isDeletedE (.file n c) then
         findFileRecursively es searchDir fileName maxDepth currentDepth
       else if lowerS n = lowerS fileName then some (searchDir ++ "/" ++ n)
       else findFileRecursively es searchDir fileName maxDepth currentDepth) := by
  conv_lhs => rw [findFileRecursively.eq_def]
  rw [if_neg (by omega)]

theorem findFileRecursively_cons_dir (n : String) (sub es : FseList)
    (searchDir fileName : String) (maxDepth currentDepth : Nat)
    (hlt : currentDepth < maxDepth) :
    findFileRecursively (.cons (.dir n sub) es) searchDir fileName maxDepth currentDepth
    = (if hiddenName n || isDeletedE (.dir n sub) then
         findFileRecursively es searchDir fileName maxDepth currentDepth
       else
         match findFileRecursively sub (searchDir ++ "/" ++ n) fileName maxDepth
             (currentDepth + 1) with
         | some r => some r
         | none => findFileRecursively es searchDir fileName maxDepth currentDepth) := by
  conv_lhs => rw [findFileRecursively.eq_def]
  rw [if_neg (by omega)]

theorem findFileRecursively_isSome_cons {e : Fse} {es : FseList}
    {searchDir fileName : String} {maxDepth currentDepth : Nat}
    (hlt : currentDepth < maxDepth)
    (h : (findFileRecursively es searchDir fileName maxDepth currentDepth).isSome) :
    (findFileRecursively (.cons e es) searchDir fileName maxDepth currentDepth).isSome := by
  cases e with
  | file n c =>
    rw [findFileRecursively_cons_file n c es searchDir fileName maxDepth currentDepth hlt]
    split
    · exact h
    · split
      · simp
      · exact h
  | dir n sub =>
    rw [findFileRecursively_cons_dir n sub es searchDir fileName maxDepth currentDepth hlt]
    split
    · exact h
    · rcases hs : findFileRecursively sub (searchDir ++ "/" ++ n) fileName maxDepth
          (currentDepth + 1) with _ | r
      · exact h
      · rfl

theorem findFileRecursively_isSome_of_file :
    ∀ (entries : FseList) {n c : String} {searchDir fileName : String}
      {maxDepth currentDepth : Nat},
      Fse.file n c ∈ entries.toList →
      (hiddenName n || isDeletedE (.file n c)) = false →
      lowerS n = lowerS fileName →
      currentDepth < maxDepth →
      (findFileRecursively entries searchDir fileName maxDepth currentDepth).isSome
  | .nil, n, c, searchDir, fileName, maxDepth, currentDepth, hmem, _, _, _ => by
    simp [FseList.toList] at hmem
  | .cons e es, n, c, searchDir, fileName, maxDepth, currentDepth,
      hmem, hskip, hlow, hlt => by
    rcases List.mem_cons.mp (by simpa [FseList.toList] using hmem) with heq | htail
    · rw [← heq]
      rw [findFileRecursively_cons_file n c es searchDir fileName maxDepth currentDepth hlt]
      simp [hskip, hlow]
    · exact findFileRecursively_isSome_cons hlt
        (findFileRecursively_isSome_of_file es htail hskip hlow hlt)

theorem findFileRecursively_isSome_of_dir :
    ∀ (entries : FseList) {n : String} {sub : FseList}
      {searchDir fileName : String} {maxDepth currentDepth : Nat},
      Fse.dir n sub ∈ entries.toList →
      (hiddenName n || isDeletedE (.dir n sub)) = false →
      (∀ dir2 : String,
        (findFileRecursively sub dir2 fileName maxDepth (currentDepth + 1)).isSome) →
      currentDepth < maxDepth →
      (findFileRecursively entries searchDir fileName maxDepth currentDepth).isSome
  | .nil, n, sub, searchDir, fileName, maxDepth, currentDepth, hmem, _, _, _ => by
    simp [FseList.toList] at hmem
  | .cons e es, n, sub, searchDir, fileName, maxDepth, currentDepth,
      hmem, hskip, hsub, hlt => by
    rcases List.mem_cons.mp (by simpa [FseList.toList] using hmem) with heq | htail
    · rw [← heq]
      rw [findFileRecursively_cons_dir n sub es searchDir fileName maxDepth currentDepth hlt]
      simp only [hskip, Bool.false_eq_true, if_false]
      rcases hs : findFileRecursively sub (searchDir ++ "/" ++ n) fileName maxDepth
          (currentDepth + 1) with _ | r
      · exact absurd (hs ▸ hsub (searchDir ++ "/" ++ n)) (by simp)
      · rfl
    · exact findFileRecursively_isSome_cons hlt
        (findFileRecursively_isSome_of_dir es htail hskip hsub hlt)

/-- **C3 (amended).**  The search strategies are depth-bounded (the
last resort at depth 10), not unbounded; within the bound, resolution
is complete: whenever a file with the sought name (case-insensitively)
is reachable at depth `k` below the searched directory — every entry on
the way passing the hidden/deleted filters — and `currentDepth + k`
is below the depth bound, `findFileRecursively` succeeds. -/
theorem c3_bounded_search_completeness (entries : FseList)
    (searchDir fileName : String) (maxDepth currentDepth k : Nat)
    (hreach : HasFileAtDepth fileName entries k)
    (hdepth : currentDepth + k < maxDepth) :
    (findFileRecursively entries searchDir fileName maxDepth currentDepth).isSome := by
  induction hreach generalizing searchDir currentDepth with
  | here hmem hskip hlow =>
    exact findFileRecursively_isSome_of_file _ hmem hskip hlow (by omega)
  | there hmem hskip _ ih =>
    exact findFileRecursively_isSome_of_dir _ hmem hskip
      (fun dir2 => ih dir2 (currentDepth + 1) (by omega)) (by omega)

/-! ### Claim C4 -/

theorem objGet_objInsert_self (k : List Char) (v : FmVal) :
    ∀ o : FmObj, objGet k (objInsert k v o) = some v
  | [] => by simp [objInsert, objGet]
  | (k0, v0) :: rest => by
    by_cases h : k0 = k
    · simp [objInsert, objGet, h]
    · simp [objInsert, objGet, h, objGet_objInsert_self k v rest]

theorem objGet_objInsert_ne (k k2 : List Char) (v : FmVal) (hne : k2 ≠ k) :
    ∀ o : FmObj, objGet k (objInsert k2 v o) = objGet k o
  | [] => by simp [objInsert, objGet, hne]
  | (k0, v0) :: rest => by
    by_cases h : k0 = k2
    · subst h
      simp [objInsert, objGet, hne]
    · simp [objInsert, objGet, h, objGet_objInsert_ne k k2 v hne rest]

/-- The upward walk of `getRootSetForPathExport` only ever inspects the
head segment: it keeps dropping the last segment until a singleton
remains, which is the top-level directory. -/
theorem getRootSetWalk_head :
    ∀ (fuel : Nat) (d : String) (rest : List String),
      (d :: rest).length ≤ fuel →
      getRootSetWalk fuel (d :: rest)
        = if isDeletedDirName d then none else some d
  | 0, d, rest, h => by simp at h
  | _ + 1, d, [], _ => rfl
  | fuel + 1, d, e :: rest, h => by
    have hlen : (d :: (e :: rest).dropLast).length ≤ fuel := by
      simp only [List.length_cons, List.length_dropLast] at h ⊢
      omega
    have ih := getRootSetWalk_head fuel d (e :: rest).dropLast hlen
    calc getRootSetWalk (fuel + 1) (d :: e :: rest)
        = getRootSetWalk fuel (d :: (e :: rest).dropLast) := rfl
      _ = _ := ih

/-- For a note in segment path `F :: rest` (inside root container `F`),
`noteSetInfoFor` forces the recomputed root set — `F` itself, when `F`
passes the deleted-name test — into the set info. -/
theorem noteSetInfoFor_head (F : String) (rest : List String)
    (relativePath : String) (hF : F ≠ "") (hdel : isDeletedDirName F = false) :
    noteSetInfoFor (F :: rest) relativePath
      = some { getSetInfoForExport (F :: rest) relativePath with
               rootSet := some F } := by
  have hroot : getRootSetForPathExport (F :: rest) = some F := by
    unfold getRootSetForPathExport
    rw [getRootSetWalk_head (F :: rest).length F rest (le_refl _),
      if_neg (by simp [hdel])]
  unfold noteSetInfoFor
  rw [if_neg (by simp)]
  dsimp only
  rw [hroot]
  rw [if_pos (by simp [jsTruthyS, hF])]

/-- The `type`/`set` lookups of the rebuilt frontmatter object when the
set info carries a truthy root set: `type` is overwritten to `SetLeaf`
and `set` to the root set name. -/
theorem mergedObjOfCap_lookups (cap : List Char) (info : SetInfoE)
    (tags : List (List Char)) (htr : jsTruthyS info.rootSet = true) :
    objGet "type".data (mergedObjOfCap cap (some info) tags)
      = some (.str "SetLeaf".data)
    ∧ objGet "set".data (mergedObjOfCap cap (some info) tags)
      = some (.str (info.rootSet.getD "").data) := by
  unfold mergedObjOfCap pageTypeFor
  dsimp only
  simp only [htr, if_true]
  by_cases ht : tags = []
  · rw [if_neg (by simp [ht])]
    refine ⟨?_, ?_⟩
    · rw [objGet_objInsert_ne "type".data "set".data _ (by decide),
        objGet_objInsert_self]
    · rw [objGet_objInsert_self]
  · rw [if_pos ht]
    refine ⟨?_, ?_⟩
    · rw [objGet_objInsert_ne "type".data "tags".data _ (by decide),
        objGet_objInsert_ne "type".data "set".data _ (by decide),
        objGet_objInsert_self]
    · rw [objGet_objInsert_ne "set".data "tags".data _ (by decide),
        objGet_objInsert_self]

/-- The same lookups for the fresh object synthesised when no
frontmatter block was present. -/
theorem freshObj_lookups (info : SetInfoE) (tags : List (List Char))
    (htr : jsTruthyS info.rootSet = true) :
    objGet "type".data (freshObj (some info) tags) = some (.str "SetLeaf".data)
    ∧ objGet "set".data (freshObj (some info) tags)
      = some (.str (info.rootSet.getD "").data) := by
  unfold freshObj pageTypeFor
  dsimp only
  simp only [htr, if_true]
  by_cases ht : tags = []
  · rw [if_neg (by simp [ht])]
    exact ⟨rfl, rfl⟩
  · rw [if_pos ht]
    exact ⟨rfl, rfl⟩

/-- With no set info (`null`), the rebuilt object's `type` becomes
`Page` and no `set` entry is written (an existing one is untouched). -/
theorem mergedObjOfCap_none_lookups (cap : List Char)
    (tags : List (List Char)) :
    objGet "type".data (mergedObjOfCap cap none tags) = some (.str "Page".data)
    ∧ objGet "set".data (mergedObjOfCap cap none tags)
      = objGet "set".data (parseFm cap) := by
  unfold mergedObjOfCap pageTypeFor
  dsimp only
  by_cases ht : tags = []
  · rw [if_neg (by simp [ht])]
    refine ⟨objGet_objInsert_self _ _ _, ?_⟩
    · rw [objGet_objInsert_ne "set".data "type".data _ (by decide)]
  · rw [if_pos ht]
    refine ⟨?_, ?_⟩
    · rw [objGet_objInsert_ne "type".data "tags".data _ (by decide),
        objGet_objInsert_self]
    · rw [objGet_objInsert_ne "set".data "tags".data _ (by decide),
        objGet_objInsert_ne "set".data "type".data _ (by decide)]

theorem freshObj_none_lookups (tags : List (List Char)) :
    objGet "type".data (freshObj none tags) = some (.str "Page".data)
    ∧ objGet "set".data (freshObj none tags) = none := by
  unfold freshObj pageTypeFor
  dsimp only
  by_cases ht : tags = []
  · rw [if_neg (by simp [ht])]
    exact ⟨rfl, rfl⟩
  · rw [if_pos ht]
    exact ⟨rfl, rfl⟩

/-- **C4 (counterexample).**  A document located directly under the
export root is never emitted at all: `convertToAnytype` collects only
root-level *directories* and the attachments folders, so `Note1.md` is
absent from the archive (while the nested `F/A.md` is present).  The
claim's second half — root-level documents emitted with type `Page` and
no `set` field — therefore fails: such documents are dropped, not
emitted. -/
theorem c4_root_level_doc_dropped :
    "Note1.md" ∉ (convertToAnytype ⟨fun s => s, fun s => s⟩ c4Vault).map Prod.fst
    ∧ "F/A.md" ∈ (convertToAnytype ⟨fun s => s, fun s => s⟩ c4Vault).map Prod.fst := by
  decide

/-- **C4 (amended).**  For every document whose directory's segment path
below the export root starts with root container `F` (nonempty name,
passing the deleted-name test), the set info handed to the metadata
merge carries root set `F` — the *top-level* ancestor, regardless of
intermediate nesting — and the merged frontmatter (both the
rewritten-block and the fresh-block forms) has `type: SetLeaf` and
`set` equal to `F`.  With no set info the merge would produce `type:
Page` and write no `set` entry, but no document directly under the
export root is ever processed (see the counterexample). -/
theorem c4_doc_metadata_roles (F : String) (rest : List String)
    (relativePath : String) (cap : List Char) (tags : List (List Char))
    (hF : F ≠ "") (hdel : isDeletedDirName F = false) :
    (objGet "type".data
        (mergedObjOfCap cap (noteSetInfoFor (F :: rest) relativePath) tags)
      = some (.str "SetLeaf".data)
     ∧ objGet "set".data
        (mergedObjOfCap cap (noteSetInfoFor (F :: rest) relativePath) tags)
      = some (.str F.data)
     ∧ objGet "type".data
        (freshObj (noteSetInfoFor (F :: rest) relativePath) tags)
      = some (.str "SetLeaf".data)
     ∧ objGet "set".data
        (freshObj (noteSetInfoFor (F :: rest) relativePath) tags)
      = some (.str F.data))
    ∧ (objGet "type".data (mergedObjOfCap cap none tags)
        = some (.str "Page".data)
       ∧ objGet "set".data (mergedObjOfCap cap none tags)
        = objGet "set".data (parseFm cap)
       ∧ objGet "type".data (freshObj none tags) = some (.str "Page".data)
       ∧ objGet "set".data (freshObj none tags) = none) := by
  have hsi := noteSetInfoFor_head F rest relativePath hF hdel
  have htr : jsTruthyS (SetInfoE.rootSet
      { getSetInfoForExport (F :: rest) relativePath with rootSet := some F })
      = true := by
    simp [jsTruthyS, hF]
  have hm := mergedObjOfCap_lookups cap
    { getSetInfoForExport (F :: rest) relativePath with rootSet := some F }
    tags htr
  have hf := freshObj_lookups
    { getSetInfoForExport (F :: rest) relativePath with rootSet := some F }
    tags htr
  have hmn := mergedObjOfCap_none_lookups cap tags
  have hfn := freshObj_none_lookups tags
  rw [hsi]
  exact ⟨⟨hm.1, hm.2, hf.1, hf.2⟩, hmn.1, hmn.2, hfn.1, hfn.2⟩

/-- Witness for `c4_doc_metadata_roles`: the container name
`"Projects"` with a nested sub-path. -/
theorem c4_doc_metadata_roles_witness :
    ("Projects" ≠ "" ∧ isDeletedDirName "Projects" = false)
    ∧ ((objGet "type".data
          (mergedObjOfCap "a: 1".data
            (noteSetInfoFor ["Projects", "Sub"] "Projects/Sub") ["t".data])
        = some (.str "SetLeaf".data)
       ∧ objGet "set".data
          (mergedObjOfCap "a: 1".data
            (noteSetInfoFor ["Projects", "Sub"] "Projects/Sub") ["t".data])
        = some (.str "Projects".data)
       ∧ objGet "type".data
          (freshObj (noteSetInfoFor ["Projects", "Sub"] "Projects/Sub") ["t".data])
        = some (.str "SetLeaf".data)
       ∧ objGet "set".data
          (freshObj (noteSetInfoFor ["Projects", "Sub"] "Projects/Sub") ["t".data])
        = some (.str "Projects".data))
      ∧ (objGet "type".data (mergedObjOfCap "a: 1".data none ["t".data])
          = some (.str "Page".data)
         ∧ objGet "set".data (mergedObjOfCap "a: 1".data none ["t".data])
          = objGet "set".data (parseFm "a: 1".data)
         ∧ objGet "type".data (freshObj none ["t".data]) = some (.str "Page".data)
         ∧ objGet "set".data (freshObj none ["t".data]) = none)) :=
  ⟨⟨by decide, by decide⟩,
    c4_doc_metadata_roles "Projects" ["Sub"] "Projects/Sub" "a: 1".data
      ["t".data] (by decide) (by decide)⟩

/-! ### Claim C9 -/

/-- **C9.**  `isDeleted(filePath, name)` depends only on the entry's
own name (exact/prefix/suffix marker-token tests, case-insensitively)
and — for documents only, recognised by the `.md`/`.markdown` extension
— on the document's own header markers (a truthy `deleted:` field or a
`status: deleted` field).  First conjunct: it coincides with the
spec-side per-entry exclusion predicate built from the entry name, the
extension test and the file's own content.  Second conjunct
(no inherited exclusion): the full path influences the result only
through the extension and the content read back, so an entry is never
excluded merely because an ancestor directory's name elsewhere in the
path carries a marker. -/
theorem c9_exclusion_is_per_entry (filePath name : String)
    (readFile : String → Option String) :
    (isDeleted filePath name readFile
      = specExcluded name (isDocExt (extname filePath)) (readFile filePath))
    ∧ (∀ (p2 : String) (rf2 : String → Option String),
        extname p2 = extname filePath → rf2 p2 = readFile filePath →
        isDeleted p2 name rf2 = isDeleted filePath name readFile) := by
  constructor
  · unfold isDeleted specExcluded nameDeleted isDocExt lowerS
    cases readFile filePath with
    | none => simp [Bool.or_assoc]
    | some c => simp [Bool.or_assoc]
  · intro p2 rf2 hext hrf
    unfold isDeleted
    rw [hext, hrf]

/-- Witness for `c9_exclusion_is_per_entry` (hypotheses sit in its
second conjunct): instantiated at a path whose *ancestor* directory
carries the `deleted` marker while the entry itself does not — the
entry is not excluded, and the equivalence evaluates concretely. -/
theorem c9_exclusion_witness :
    (isDeleted "vault/deleted_stuff/Note.md" "Note.md" (fun _ => some "hi")
      = specExcluded "Note.md" (isDocExt (extname "vault/deleted_stuff/Note.md"))
          (some "hi"))
    ∧ extname "elsewhere/Note.md" = extname "vault/deleted_stuff/Note.md"
    ∧ isDeleted "elsewhere/Note.md" "Note.md" (fun _ => some "hi")
      = isDeleted "vault/deleted_stuff/Note.md" "Note.md" (fun _ => some "hi")
    ∧ isDeleted "vault/deleted_stuff/Note.md" "Note.md" (fun _ => some "hi") = false :=
  ⟨(c9_exclusion_is_per_entry "vault/deleted_stuff/Note.md" "Note.md"
      (fun _ => some "hi")).1,
   by decide,
   (c9_exclusion_is_per_entry "vault/deleted_stuff/Note.md" "Note.md"
      (fun _ => some "hi")).2 "elsewhere/Note.md" (fun _ => some "hi")
      (by decide) rfl,
   by decide⟩

/-- Witness for `c3_bounded_search_completeness`: a file nine
directories deep is found by the depth-10 last-resort search. -/
theorem c3_bounded_search_completeness_witness :
    HasFileAtDepth "img.png" (nestDirs 9) 9
    ∧ 0 + 9 < 10
    ∧ (findFileRecursively (nestDirs 9) "vault" "img.png" 10 0).isSome := by
  have key : ∀ j, HasFileAtDepth "img.png" (nestDirs j) j := by
    intro j
    induction j with
    | zero =>
      exact @HasFileAtDepth.here "img.png" (nestDirs 0) "img.png" ""
        (by simp [nestDirs, FseList.toList]) (by decide) rfl
    | succ n ih =>
      exact @HasFileAtDepth.there "img.png" (nestDirs (n + 1)) "d" (nestDirs n) n
        (by simp [nestDirs, FseList.toList]) rfl ih
  exact ⟨key 9, by omega,
    c3_bounded_search_completeness (nestDirs 9) "vault" "img.png" 10 0 9 (key 9)
      (by omega)⟩

/-! ### Claim C2 -/

theorem expandRepl_no_dollar (m cap suffix : List Char) :
    ∀ r : List Char, dollarC ∉ r → expandRepl m cap suffix r = r
  | [], _ => rfl
  | c :: cs, h => by
    have hc : c ≠ dollarC := fun he => h (he ▸ List.mem_cons_self c cs)
    have hcs : dollarC ∉ cs := fun hm => h (List.mem_cons_of_mem c hm)
    unfold expandRepl
    rw [if_neg hc, expandRepl_no_dollar m cap suffix cs hcs]

theorem takeWhile_drop_eq (p : Char → Bool) :
    ∀ (t : List Char) (k : Nat), k ≤ (t.takeWhile p).length →
      (t.drop k).takeWhile p = (t.takeWhile p).drop k
  | _, 0, _ => by simp
  | [], _ + 1, _ => by simp
  | c :: cs, k + 1, h => by
    have hpc : p c = true := by
      by_contra hb
      simp [List.takeWhile_cons_of_neg (by simpa using hb)] at h
    rw [List.takeWhile_cons_of_pos hpc] at h ⊢
    simp only [List.drop_succ_cons, List.length_cons] at h ⊢
    exact takeWhile_drop_eq p cs k (by omega)

theorem takeWhile_append_stop (p : Char → Bool) :
    ∀ (v w : List Char), (∃ c ∈ v, p c = false) →
      (v ++ w).takeWhile p = v.takeWhile p
  | [], _, h => by simp at h
  | c :: cs, w, h => by
    by_cases hpc : p c = true
    · have h' : ∃ x ∈ cs, p x = false := by
        rcases h with ⟨x, hx, hpx⟩
        rcases List.mem_cons.mp hx with rfl | hxs
        · exact absurd hpc (by simp [hpx])
        · exact ⟨x, hxs, hpx⟩
      rw [List.cons_append, List.takeWhile_cons_of_pos hpc,
        List.takeWhile_cons_of_pos hpc, takeWhile_append_stop p cs w h']
    · rw [List.cons_append, List.takeWhile_cons_of_neg (by simpa using hpc),
        List.takeWhile_cons_of_neg (by simpa using hpc)]

theorem takeWhile_append_all (p : Char → Bool) :
    ∀ (k R : List Char), (∀ c ∈ k, p c = true) →
      (k ++ R).takeWhile p = k ++ R.takeWhile p
  | [], _, _ => by simp
  | c :: cs, R, h => by
    rw [List.cons_append, List.takeWhile_cons_of_pos (h c (by simp)),
      takeWhile_append_all p cs R (fun x hx => h x (by simp [hx]))]
    rfl

/-- The head of the reversed filtered range is the largest index
satisfying the predicate — the greedy (longest-first) backtracking
preference of `wsNlCands`. -/
theorem filter_range_last_max (p : Nat → Bool) :
    ∀ (n : Nat) (i0 : Nat),
      (((List.range n).filter p).reverse).head? = some i0 →
      p i0 = true ∧ i0 < n ∧ ∀ j, j < n → p j = true → j ≤ i0
  | 0, i0, h => by simp at h
  | n + 1, i0, h => by
    rw [List.range_succ, List.filter_append, List.reverse_append] at h
    by_cases hpn : p n = true
    · simp only [List.filter_cons, hpn, if_true, List.filter_nil,
        List.reverse_cons, List.reverse_nil, List.nil_append,
        List.cons_append, List.head?_cons, Option.some.injEq] at h
      subst h
      exact ⟨hpn, by omega, fun j hj _ => by omega⟩
    · simp only [List.filter_cons, hpn, if_false, List.filter_nil,
        List.reverse_nil, List.nil_append] at h
      obtain ⟨h1, h2, h3⟩ := filter_range_last_max p n i0 h
      refine ⟨h1, by omega, fun j hj hpj => ?_⟩
      rcases Nat.lt_succ_iff_lt_or_eq.mp hj with hlt | rfl
      · exact h3 j hlt hpj
      · exact absurd hpj (by simp [hpn])

theorem wsNlGreedy_rest_no_nl {t w rest : List Char}
    (h : wsNlGreedy t = some (w, rest)) : '\n' ∉ rest.takeWhile isWsC := by
  unfold wsNlGreedy wsNlCands at h
  dsimp only at h
  rw [List.head?_map] at h
  obtain ⟨i0, hh, hf⟩ := Option.map_eq_some'.mp h
  obtain ⟨hp, hlt, hmax⟩ := filter_range_last_max _ _ _ hh
  have hrest : rest = t.drop (i0 + 1) := by
    have := congrArg Prod.snd hf
    simpa using this.symm
  subst hrest
  have hdrop : (t.drop (i0 + 1)).takeWhile isWsC
      = (t.takeWhile isWsC).drop (i0 + 1) :=
    takeWhile_drop_eq isWsC t (i0 + 1) (by omega)
  rw [hdrop]
  intro hmem
  obtain ⟨idx, hidx, hEq⟩ := List.mem_iff_getElem.mp hmem
  rw [List.getElem_drop] at hEq
  have hil : i0 + 1 + idx < (t.takeWhile isWsC).length := by
    simp only [List.length_drop] at hidx
    omega
  have hpj : (fun i => decide ((t.takeWhile isWsC).getD i ' ' = '\n'))
      (i0 + 1 + idx) = true := by
    simp only [decide_eq_true_eq]
    rw [List.getD_eq_getElem _ _ hil]
    exact hEq
  have := hmax (i0 + 1 + idx) hil hpj
  omega

theorem findSep_rest_no_nl :
    ∀ (s : List Char) {cap sep rest : List Char},
      findSep s = some (cap, sep, rest) → '\n' ∉ rest.takeWhile isWsC
  | [], _, _, _, h => by simp [findSep] at h
  | c :: cs, cap, sep, rest, h => by
    unfold findSep at h
    split at h
    · split at h
      next w r heq =>
        cases h
        exact wsNlGreedy_rest_no_nl heq
      next heq =>
        split at h
        next cap2 sep2 r2 heq2 =>
          cases h
          exact findSep_rest_no_nl cs heq2
        next => exact absurd h (by simp)
    · split at h
      next cap2 sep2 r2 heq2 =>
        cases h
        exact findSep_rest_no_nl cs heq2
      next => exact absurd h (by simp)

theorem frontMatchCands_rest_no_nl :
    ∀ (cands : List (List Char × List Char)) {m cap rest : List Char},
      frontMatchCands cands = some (m, cap, rest) →
      '\n' ∉ rest.takeWhile isWsC
  | [], _, _, _, h => by simp [frontMatchCands] at h
  | (opn, rem) :: more, m, cap, rest, h => by
    unfold frontMatchCands at h
    split at h
    next cap2 sep2 r2 heq =>
      cases h
      exact findSep_rest_no_nl rem heq
    next => exact frontMatchCands_rest_no_nl more h

/-- Postcondition of the frontmatter regex: the trailing `\s*\n` is
greedy, so what remains after the match cannot begin with further
whitespace containing a newline. -/
theorem frontMatch_rest_no_nl {s m cap rest : List Char}
    (h : frontMatch s = some (m, cap, rest)) : '\n' ∉ rest.takeWhile isWsC := by
  unfold frontMatch at h
  split at h
  · exact frontMatchCands_rest_no_nl _ h
  · exact absurd h (by simp)

theorem wsNlGreedy_none_of {t : List Char} (h : '\n' ∉ t.takeWhile isWsC) :
    wsNlGreedy t = none := by
  unfold wsNlGreedy wsNlCands
  dsimp only
  have hfil : ((List.range (t.takeWhile isWsC).length).filter
      (fun i => decide ((t.takeWhile isWsC).getD i ' ' = '\n'))) = [] := by
    rw [List.filter_eq_nil_iff]
    intro i hi
    simp only [List.mem_range] at hi
    simp only [decide_eq_true_eq]
    rw [List.getD_eq_getElem _ _ hi]
    exact fun he => h (he ▸ List.getElem_mem hi)
  rw [hfil]
  rfl

theorem wsNlCands_newline {X : List Char} (h : '\n' ∉ X.takeWhile isWsC) :
    wsNlCands ('\n' :: X) = [(['\n'], X)] := by
  unfold wsNlCands
  dsimp only
  have hrun : ('\n' :: X).takeWhile isWsC = '\n' :: X.takeWhile isWsC :=
    List.takeWhile_cons_of_pos (by decide)
  rw [hrun]
  have hfil : ((List.range ('\n' :: X.takeWhile isWsC).length).filter
      (fun i => decide (('\n' :: X.takeWhile isWsC).getD i ' ' = '\n'))) = [0] := by
    rw [List.length_cons, List.range_succ_eq_map, List.filter_cons]
    rw [if_pos (by simp)]
    rw [List.filter_map]
    have : ((List.range (X.takeWhile isWsC).length).filter
        (fun j => decide (('\n' :: X.takeWhile isWsC).getD (j + 1) ' ' = '\n'))) = [] := by
      rw [List.filter_eq_nil_iff]
      intro j hj
      simp only [List.mem_range] at hj
      simp only [List.getD_cons_succ, decide_eq_true_eq]
      rw [List.getD_eq_getElem _ _ hj]
      exact fun he => h (he ▸ List.getElem_mem hj)
    rw [show ((fun i => decide (('\n' :: X.takeWhile isWsC).getD i ' ' = '\n')) ∘ Nat.succ)
        = (fun j => decide (('\n' :: X.takeWhile isWsC).getD (j + 1) ' ' = '\n')) from rfl]
    rw [this]
    rfl
  rw [hfil]
  rfl

/-- The greedy `\s*\n` at a newline boundary consumes exactly that
newline when no further newline lies in the following whitespace. -/
theorem wsNlGreedy_newline {rest : List Char} (h : '\n' ∉ rest.takeWhile isWsC) :
    wsNlGreedy ('\n' :: rest) = some (['\n'], rest) := by
  unfold wsNlGreedy
  rw [wsNlCands_newline h]
  rfl

theorem getLastD_mem : ∀ (l : List Char) (d : Char), l ≠ [] → l.getLastD d ∈ l
  | [], _, h => absurd rfl h
  | [a], d, _ => by simp
  | a :: b :: l, d, _ => by
    rw [List.getLastD_cons]
    exact List.mem_cons_of_mem a (getLastD_mem (b :: l) a (by simp))

theorem lineOK_parts {l : List Char} (h : lineOK l = true) :
    l ≠ [] ∧ '\n' ∉ l ∧ isWsC (l.getLastD ' ') = false ∧ l ≠ "---".data := by
  simp only [lineOK, Bool.and_eq_true, Bool.not_eq_true', List.all_eq_true,
    decide_eq_true_eq] at h
  obtain ⟨⟨⟨h1, h2⟩, h3⟩, h4⟩ := h
  refine ⟨?_, fun hm => (h2 '\n' hm) rfl, h3, h4⟩
  intro he
  rw [he] at h1
  simp at h1

/-- Inside a line no separator can start: the first remaining character
is not a newline, so the scan just walks over the line's characters. -/
theorem findSep_skip :
    ∀ (v X : List Char), '\n' ∉ v →
      findSep (v ++ X) = (findSep X).map (fun t => (v ++ t.1, t.2))
  | [], X, _ => by
    cases hX : findSep X with
    | none => simp [hX]
    | some t => simp [hX]
  | c :: cs, X, h => by
    have hc : c ≠ '\n' := fun he => h (he ▸ List.mem_cons_self c cs)
    have hcs : '\n' ∉ cs := fun hm => h (List.mem_cons_of_mem c hm)
    rw [List.cons_append]
    conv_lhs => rw [findSep.eq_def]
    dsimp only
    have hb : ('\n' == c) = false := beq_eq_false_iff_ne.mpr (Ne.symm hc)
    rw [if_neg (by simp [List.isPrefixOf, hb])]
    rw [findSep_skip cs X hcs]
    cases hX : findSep X with
    | none => simp [hX]
    | some t =>
      obtain ⟨cap, sep, r⟩ := t
      simp [hX]

/-- At the closing delimiter the scan succeeds, consuming exactly
`\n---\n` when the following whitespace holds no further newline. -/
theorem findSep_end {rest : List Char} (h : '\n' ∉ rest.takeWhile isWsC) :
    findSep ("\n---\n".data ++ rest) = some ([], "\n---\n".data, rest) := by
  rw [show "\n---\n".data ++ rest = '\n' :: ('-' :: '-' :: '-' :: '\n' :: rest) from rfl]
  unfold findSep
  rw [if_pos (show ("\n---".data).isPrefixOf
    ('\n' :: '-' :: '-' :: '-' :: '\n' :: rest) = true from rfl)]
  rw [show List.drop 4 ('\n' :: '-' :: '-' :: '-' :: '\n' :: rest) = '\n' :: rest from rfl]
  rw [wsNlGreedy_newline h]
  rfl

/-- One scanning step at a line boundary, when the potential separator
at the boundary cannot complete. -/
theorem findSep_cons_newline (u : List Char)
    (hg : ("\n---".data).isPrefixOf ('\n' :: u) = true →
      wsNlGreedy (u.drop 3) = none) :
    findSep ('\n' :: u) = (findSep u).map (fun t => ('\n' :: t.1, t.2)) := by
  conv_lhs => rw [findSep.eq_def]
  dsimp only
  by_cases hpre : ("\n---".data).isPrefixOf ('\n' :: u) = true
  · rw [if_pos hpre]
    rw [show ('\n' :: u).drop 4 = u.drop 3 from rfl]
    rw [hg hpre]
    cases hU : findSep u with
    | none => simp [hU]
    | some t =>
      obtain ⟨cap, sep, r⟩ := t
      simp [hU]
  · rw [if_neg hpre]
    cases hU : findSep u with
    | none => simp [hU]
    | some t =>
      obtain ⟨cap, sep, r⟩ := t
      simp [hU]

/-- A well-formed line starting a boundary cannot complete a separator:
either it does not start with `---`, or what follows the `---` reaches
a non-whitespace character before any newline. -/
theorem line_no_early (l2 X2 : List Char) (h2 : lineOK l2 = true) :
    ("---".data).isPrefixOf (l2 ++ '\n' :: X2) = true →
      wsNlGreedy ((l2 ++ '\n' :: X2).drop 3) = none := by
  intro hpre
  obtain ⟨hne, hnl, hlast, hnd⟩ := lineOK_parts h2
  rcases l2 with _ | ⟨a, _ | ⟨b, _ | ⟨c, l2'⟩⟩⟩
  · exact absurd rfl hne
  · rw [show ([a] ++ '\n' :: X2) = a :: '\n' :: X2 from rfl] at hpre
    simp [List.isPrefixOf] at hpre
  · rw [show ([a, b] ++ '\n' :: X2) = a :: b :: '\n' :: X2 from rfl] at hpre
    simp [List.isPrefixOf] at hpre
  · have habc : a = '-' ∧ b = '-' ∧ c = '-' := by
      rw [show ((a :: b :: c :: l2') ++ '\n' :: X2)
          = a :: b :: c :: (l2' ++ '\n' :: X2) from rfl] at hpre
      simp only [show "---".data = ['-', '-', '-'] from rfl,
        List.isPrefixOf, Bool.and_eq_true, beq_iff_eq, and_true] at hpre
      exact ⟨hpre.1.symm, hpre.2.1.symm, hpre.2.2.symm⟩
    obtain ⟨rfl, rfl, rfl⟩ := habc
    rcases hl2' : l2' with _ | ⟨x0, xs⟩
    · subst hl2'
      exact absurd rfl hnd
    · rw [← hl2']
      have hl2ne : l2' ≠ [] := by rw [hl2']; simp
      rw [show ((('-' :: '-' :: '-' :: l2') ++ '\n' :: X2)).drop 3
          = l2' ++ '\n' :: X2 from rfl]
      apply wsNlGreedy_none_of
      have hwit : ∃ x ∈ l2', isWsC x = false := by
        refine ⟨l2'.getLastD '-', getLastD_mem l2' '-' hl2ne, ?_⟩
        have : (('-' : Char) :: '-' :: '-' :: l2').getLastD ' ' = l2'.getLastD '-' := by
          rw [List.getLastD_cons, List.getLastD_cons, List.getLastD_cons]
        rw [← this]
        exact hlast
      rw [takeWhile_append_stop isWsC l2' ('\n' :: X2) hwit]
      intro hm
      exact hnl (List.mem_cons_of_mem '-' (List.mem_cons_of_mem '-'
        (List.mem_cons_of_mem '-' (List.takeWhile_sublist isWsC |>.subset hm))))

/-- The separator scan over a block of well-formed lines finds exactly
the closing delimiter: nothing earlier completes a match. -/
theorem findSep_lines :
    ∀ (lines : List (List Char)) (rest : List Char),
      (∀ l ∈ lines, lineOK l = true) → '\n' ∉ rest.takeWhile isWsC →
      findSep (List.intercalate ['\n'] lines ++ "\n---\n".data ++ rest)
        = some (List.intercalate ['\n'] lines, "\n---\n".data, rest)
  | [], rest, _, hrest => by
    rw [show List.intercalate ['\n'] ([] : List (List Char)) = [] by
      simp [List.intercalate]]
    rw [List.nil_append]
    exact findSep_end hrest
  | [l], rest, hall, hrest => by
    have hone : List.intercalate ['\n'] [l] = l := by simp [List.intercalate]
    rw [hone]
    have hnl : '\n' ∉ l := (lineOK_parts (hall l (by simp))).2.1
    rw [List.append_assoc, findSep_skip l _ hnl, findSep_end hrest]
    simp
  | l :: l2 :: ls, rest, hall, hrest => by
    have hI : List.intercalate ['\n'] (l :: l2 :: ls)
        = l ++ '\n' :: List.intercalate ['\n'] (l2 :: ls) := by
      simp [List.intercalate, List.intersperse]
    rw [hI]
    have hnl : '\n' ∉ l := (lineOK_parts (hall l (by simp))).2.1
    have hshape : ∃ Y, List.intercalate ['\n'] (l2 :: ls) ++ "\n---\n".data ++ rest
        = l2 ++ '\n' :: Y := by
      cases ls with
      | nil =>
        refine ⟨"---\n".data ++ rest, ?_⟩
        rw [show List.intercalate ['\n'] [l2] = l2 by simp [List.intercalate]]
        rw [List.append_assoc]
        rfl
      | cons l3 ls' =>
        refine ⟨List.intercalate ['\n'] (l3 :: ls') ++ "\n---\n".data ++ rest, ?_⟩
        rw [show List.intercalate ['\n'] (l2 :: l3 :: ls')
            = l2 ++ '\n' :: List.intercalate ['\n'] (l3 :: ls') by
          simp [List.intercalate, List.intersperse]]
        simp [List.append_assoc]
    obtain ⟨Y, hY⟩ := hshape
    have ih := findSep_lines (l2 :: ls) rest (fun x hx => hall x (by simp [hx]))
      hrest
    have step : findSep ('\n' :: (List.intercalate ['\n'] (l2 :: ls)
        ++ "\n---\n".data ++ rest))
        = some ('\n' :: List.intercalate ['\n'] (l2 :: ls), "\n---\n".data, rest) := by
      rw [findSep_cons_newline _ (by
        rw [hY]
        exact line_no_early l2 Y (hall l2 (by simp)))]
      rw [ih]
      rfl
    calc findSep ((l ++ '\n' :: List.intercalate ['\n'] (l2 :: ls))
          ++ "\n---\n".data ++ rest)
        = findSep (l ++ ('\n' :: (List.intercalate ['\n'] (l2 :: ls)
            ++ "\n---\n".data ++ rest))) := by
          simp [List.append_assoc]
      _ = some (l ++ '\n' :: List.intercalate ['\n'] (l2 :: ls),
            "\n---\n".data, rest) := by
          rw [findSep_skip _ _ hnl, step]
          rfl

theorem objInsert_same (k : List Char) (v : FmVal) :
    ∀ o : FmObj, objGet k o = some v → objInsert k v o = o
  | [], h => by simp [objGet] at h
  | (k0, v0) :: rest, h => by
    by_cases hk : k0 = k
    · subst hk
      unfold objGet at h
      rw [if_pos rfl] at h
      cases h
      unfold objInsert
      rw [if_pos rfl]
    · simp only [objGet, if_neg hk] at h
      simp [objInsert, hk, objInsert_same k v rest h]

theorem objInsert_fresh (k : List Char) (v : FmVal) :
    ∀ o : FmObj, (∀ e ∈ o, e.1 ≠ k) → objInsert k v o = o ++ [(k, v)]
  | [], _ => rfl
  | (k0, v0) :: rest, h => by
    have hk : k0 ≠ k := h (k0, v0) (by simp)
    simp [objInsert, hk, objInsert_fresh k v rest (fun e he => h e (by simp [he]))]

theorem entryWF_parts {k v : List Char} (h : entryWF (k, .str v) = true) :
    k ≠ [] ∧ trimL k = k ∧ (∀ c ∈ k, c ≠ ':' ∧ c ≠ '\n' ∧ c ≠ dollarC)
    ∧ isArrayIndexKey k = false ∧ ∀ c ∈ v, c ≠ '\n' ∧ c ≠ dollarC := by
  simp only [entryWF, Bool.and_eq_true] at h
  obtain ⟨⟨⟨⟨h1, h2⟩, h3⟩, h4⟩, h5⟩ := h
  refine ⟨?_, ?_, ?_, ?_, ?_⟩
  · intro he
    rw [he] at h1
    simp at h1
  · simpa using h2
  · intro c hc
    have hx := List.all_eq_true.mp h3 c hc
    simp only [Bool.and_eq_true, decide_eq_true_eq] at hx
    exact ⟨hx.1.1, hx.1.2, hx.2⟩
  · simpa using h4
  · intro c hc
    have hx := List.all_eq_true.mp h5 c hc
    simp only [Bool.and_eq_true, decide_eq_true_eq] at hx
    exact ⟨hx.1, hx.2⟩

theorem serializeEntry_shape (k v : List Char) :
    serializeEntry (k, .str v) = k ++ ':' :: ' ' :: '"' :: (v ++ ['"']) := by
  simp [serializeEntry, quoteVal]

theorem drop_append_cons (x : Char) (R : List Char) :
    ∀ (k : List Char), (k ++ x :: R).drop (k.length + 1) = R
  | [] => by simp
  | c :: k' => by
    rw [List.cons_append, List.length_cons]
    rw [show k'.length + 1 + 1 = (k'.length + 1) + 1 from rfl]
    rw [List.drop_succ_cons]
    exact drop_append_cons x R k'

theorem trimL_value_span (v : List Char) :
    trimL (' ' :: '"' :: (v ++ ['"'])) = '"' :: (v ++ ['"']) := by
  unfold trimL
  rw [show List.dropWhile isWsC (' ' :: '"' :: (v ++ ['"'])) = '"' :: (v ++ ['"']) from by
    rw [List.dropWhile_cons_of_pos (by decide), List.dropWhile_cons_of_neg (by decide)]]
  rw [show ('"' :: (v ++ ['"'])).reverse = '"' :: (v.reverse ++ ['"']) from by simp]
  rw [List.dropWhile_cons_of_neg (by decide)]
  rw [show ('"' :: (v.reverse ++ ['"'])).reverse = '"' :: (v ++ ['"']) from by simp]

theorem stripQuotes_quoted (v : List Char) :
    stripQuotes ('"' :: (v ++ ['"'])) = v := by
  have hlast : ('"' :: (v ++ ['"'])).getLastD ' ' = '"' := by
    rw [List.getLastD_cons, List.getLastD_concat]
  unfold stripQuotes
  split
  · rw [List.drop_one, List.tail_cons, List.dropLast_concat]
  · next hcond =>
    exfalso
    apply hcond
    simp only [Bool.and_eq_true, Bool.or_eq_true, decide_eq_true_eq]
    refine ⟨by simp, Or.inl ⟨by simp, ?_⟩⟩
    exact hlast

theorem parseFmLine_serialized (k v : List Char) (o : FmObj)
    (hk : k ≠ []) (hktrim : trimL k = k) (hkcolon : ∀ c ∈ k, c ≠ ':') :
    parseFmLine o (serializeEntry (k, .str v)) = objInsert k (.str v) o := by
  rw [serializeEntry_shape]
  unfold parseFmLine
  dsimp only
  rw [takeWhile_append_all _ k _ (fun c hc => by simp [hkcolon c hc])]
  rw [show List.takeWhile (fun c => decide (c ≠ ':'))
      (':' :: ' ' :: '"' :: (v ++ ['"'])) = [] from rfl]
  rw [List.append_nil]
  rw [if_pos ⟨List.length_pos.mpr hk, by simp⟩]
  rw [hktrim, drop_append_cons, trimL_value_span, stripQuotes_quoted]

theorem keysNodup_parts {e : List Char × FmVal} {es : FmObj}
    (h : keysNodup (e :: es) = true) :
    (∀ f ∈ es, f.1 ≠ e.1) ∧ keysNodup es = true := by
  simp only [keysNodup, Bool.and_eq_true, Bool.not_eq_true', List.any_eq_false,
    decide_eq_true_eq] at h
  exact ⟨fun f hf => by simpa using h.1 f hf, h.2⟩

theorem parseFm_serialized :
    ∀ (entries : FmObj) (acc : FmObj),
      (∀ e ∈ entries, entryWF e = true) →
      (∀ e ∈ entries, ∀ a ∈ acc, a.1 ≠ e.1) →
      keysNodup entries = true →
      List.foldl parseFmLine acc (entries.map serializeEntry) = acc ++ entries
  | [], acc, _, _, _ => by simp
  | (k, v) :: es, acc, hWF, hfresh, hnd => by
    cases v with
    | tagsObj ks =>
      exact absurd (hWF (k, .tagsObj ks) (List.mem_cons_self _ _))
        (by simp [entryWF])
    | str v' =>
      obtain ⟨hk, hktrim, hkchars, _, _⟩ :=
        entryWF_parts (hWF (k, .str v') (List.mem_cons_self _ _))
      obtain ⟨hfr, hnd'⟩ := keysNodup_parts hnd
      rw [List.map_cons, List.foldl_cons,
        parseFmLine_serialized k v' acc hk hktrim (fun c hc => (hkchars c hc).1),
        objInsert_fresh k (.str v') acc
          (fun a ha => hfresh (k, .str v') (List.mem_cons_self _ _) a ha)]
      have hrec := parseFm_serialized es (acc ++ [(k, FmVal.str v')])
        (fun e he => hWF e (by simp [he]))
        (fun e he a ha => by
          rcases List.mem_append.mp ha with h1 | h1
          · exact hfresh e (by simp [he]) a h1
          · rw [List.mem_singleton.mp h1]
            exact (hfr e he).symm)
        hnd'
      rw [hrec]
      simp

theorem jsEntries_id (o : FmObj) (h : ∀ e ∈ o, isArrayIndexKey e.1 = false) :
    jsEntries o = o := by
  unfold jsEntries
  rw [show o.filter (fun e => isArrayIndexKey e.1) = [] from
    List.filter_eq_nil_iff.mpr (fun e he => by simp [h e he])]
  rw [show o.filter (fun e => !isArrayIndexKey e.1) = o from
    List.filter_eq_self.mpr (fun e he => by simp [h e he])]
  rfl

theorem serializeEntry_lineOK {k v : List Char}
    (h : entryWF (k, .str v) = true) :
    lineOK (serializeEntry (k, .str v)) = true := by
  obtain ⟨hk, hktrim, hkchars, _, hvchars⟩ := entryWF_parts h
  rw [serializeEntry_shape]
  have hmemnl : ∀ c ∈ k ++ ':' :: ' ' :: '"' :: (v ++ ['"']), c ≠ '\n' := by
    intro c hc
    rcases List.mem_append.mp hc with h1 | h1
    · exact (hkchars c h1).2.1
    · rcases h1 with _ | ⟨_, _ | ⟨_, _ | ⟨_, h2⟩⟩⟩
      · decide
      · decide
      · decide
      · rcases List.mem_append.mp h2 with h3 | h3
        · exact (hvchars c h3).1
        · rw [List.mem_singleton.mp h3]
          decide
  have hlast : (k ++ ':' :: ' ' :: '"' :: (v ++ ['"'])).getLastD ' ' = '"' := by
    rw [show k ++ ':' :: ' ' :: '"' :: (v ++ ['"'])
        = (k ++ ':' :: ' ' :: '"' :: v) ++ ['"'] from by simp,
      List.getLastD_concat]
  have hquote : '"' ∈ k ++ ':' :: ' ' :: '"' :: (v ++ ['"']) := by simp
  simp only [lineOK, Bool.and_eq_true, Bool.not_eq_true', List.all_eq_true,
    decide_eq_true_eq]
  refine ⟨⟨⟨?_, fun c hc => hmemnl c hc⟩, by rw [hlast]; decide⟩, ?_⟩
  · simp
  · intro he
    rw [he] at hquote
    simp at hquote

theorem serializeFm_eq_of_wf (o : FmObj)
    (h : ∀ e ∈ o, isArrayIndexKey e.1 = false) :
    serializeFm o = "---\n".data
      ++ List.intercalate ['\n'] (o.map serializeEntry) ++ "\n---\n".data := by
  unfold serializeFm
  rw [jsEntries_id o h]

theorem objWF_parts {o : FmObj} (h : objWF o = true) :
    o ≠ [] ∧ (∀ e ∈ o, entryWF e = true) ∧ keysNodup o = true := by
  simp only [objWF, Bool.and_eq_true, Bool.not_eq_true', List.all_eq_true] at h
  obtain ⟨⟨h1, h2⟩, h3⟩ := h
  refine ⟨?_, h2, h3⟩
  intro he
  rw [he] at h1
  simp at h1

theorem objWF_no_index {o : FmObj} (h : objWF o = true) :
    ∀ e ∈ o, isArrayIndexKey e.1 = false := by
  intro e he
  obtain ⟨_, hWF, _⟩ := objWF_parts h
  obtain ⟨k, v⟩ := e
  cases v with
  | tagsObj ks => exact absurd (hWF _ he) (by simp [entryWF])
  | str v' => exact (entryWF_parts (hWF _ he)).2.2.2.1

theorem serializeFm_no_dollar (o : FmObj) (h : objWF o = true) :
    dollarC ∉ serializeFm o := by
  obtain ⟨_, hWF, _⟩ := objWF_parts h
  rw [serializeFm_eq_of_wf o (objWF_no_index h)]
  intro hmem
  rcases List.mem_append.mp hmem with h1 | h1
  · rcases List.mem_append.mp h1 with h2 | h2
    · simp only [show "---\n".data = ['-', '-', '-', '\n'] from rfl,
        List.mem_cons, List.not_mem_nil, or_false] at h2
      rcases h2 with h3 | h3 | h3 | h3 <;> exact absurd h3 (by decide)
    · rcases mem_intercalate_single dollarC h2 with h3 | ⟨p, hp, hxp⟩
      · exact absurd h3 (by decide)
      · obtain ⟨⟨k, v⟩, he, hser⟩ := List.mem_map.mp hp
        cases v with
        | tagsObj ks =>
          exact absurd (hWF (k, .tagsObj ks) he) (by simp [entryWF])
        | str v' =>
          obtain ⟨_, _, hkchars, _, hvchars⟩ :=
            entryWF_parts (hWF (k, .str v') he)
          rw [← hser, serializeEntry_shape] at hxp
          rcases List.mem_append.mp hxp with h4 | h4
          · exact (hkchars _ h4).2.2 rfl
          · simp only [List.mem_cons, List.mem_append,
              List.mem_singleton] at h4
            rcases h4 with h5 | h5 | h5 | h5 | h5
            · exact absurd h5 (by decide)
            · exact absurd h5 (by decide)
            · exact absurd h5 (by decide)
            · exact (hvchars _ h5).2 rfl
            · exact absurd h5 (by decide)
  · simp only [show "\n---\n".data = ['\n', '-', '-', '-', '\n'] from rfl,
      List.mem_cons, List.not_mem_nil, or_false] at h1
    rcases h1 with h3 | h3 | h3 | h3 | h3 <;> exact absurd h3 (by decide)

theorem length_dropWhile_le' (p : Char → Bool) :
    ∀ l : List Char, (l.dropWhile p).length ≤ l.length
  | [] => by simp
  | c :: cs => by
    by_cases hpc : p c = true
    · rw [List.dropWhile_cons_of_pos hpc]
      calc (cs.dropWhile p).length ≤ cs.length := length_dropWhile_le' p cs
        _ ≤ (c :: cs).length := by simp
    · rw [List.dropWhile_cons_of_neg (by simpa using hpc)]

theorem trimL_head_not_ws {k : List Char} (htrim : trimL k = k) (hk : k ≠ []) :
    isWsC (k.headD ' ') = false := by
  rcases k with _ | ⟨c, k'⟩
  · exact absurd rfl hk
  · simp only [List.headD_cons]
    by_contra hws
    rw [Bool.not_eq_false] at hws
    have h1 : List.dropWhile isWsC (c :: k') = List.dropWhile isWsC k' :=
      List.dropWhile_cons_of_pos hws
    have h2 : (trimL (c :: k')).length ≤ k'.length := by
      unfold trimL
      rw [h1]
      calc (((List.dropWhile isWsC k').reverse.dropWhile isWsC).reverse).length
          = ((List.dropWhile isWsC k').reverse.dropWhile isWsC).length :=
            List.length_reverse _
        _ ≤ (List.dropWhile isWsC k').reverse.length :=
            length_dropWhile_le' _ _
        _ = (List.dropWhile isWsC k').length := List.length_reverse _
        _ ≤ k'.length := length_dropWhile_le' _ _
    rw [htrim] at h2
    simp at h2

/-- The serialised block begins with the first entry's key, whose head
is not whitespace — so the whitespace run after the opening `---\n`
stops immediately. -/
theorem serialized_takeWhile_nil (o : FmObj) (hWF : objWF o = true)
    (Z : List Char) :
    (List.intercalate ['\n'] (o.map serializeEntry) ++ Z).takeWhile isWsC
      = [] := by
  obtain ⟨hne, hWFe, _⟩ := objWF_parts hWF
  rcases o with _ | ⟨⟨k0, v0⟩, o'⟩
  · exact absurd rfl hne
  · cases v0 with
    | tagsObj ks =>
      exact absurd (hWFe _ (List.mem_cons_self _ _)) (by simp [entryWF])
    | str v0' =>
      obtain ⟨hk0, hk0trim, _, _, _⟩ :=
        entryWF_parts (hWFe _ (List.mem_cons_self _ _))
      have hLshape : ∃ T, List.intercalate ['\n']
          (((k0, FmVal.str v0') :: o').map serializeEntry)
          = serializeEntry (k0, .str v0') ++ T := by
        rw [List.map_cons]
        cases ho' : o'.map serializeEntry with
        | nil => exact ⟨[], by simp [List.intercalate]⟩
        | cons l2 ls =>
          exact ⟨'\n' :: List.intercalate ['\n'] (l2 :: ls), by
            simp [List.intercalate, List.intersperse]⟩
      obtain ⟨T, hT⟩ := hLshape
      rw [hT]
      rcases hk : k0 with _ | ⟨c0, k0'⟩
      · rw [hk] at hk0
        exact absurd rfl hk0
      · rw [hk] at hk0 hk0trim
        have hc0 : isWsC c0 = false := by
          simpa using trimL_head_not_ws hk0trim hk0
        rw [serializeEntry_shape]
        rw [show (((c0 :: k0') ++ ':' :: ' ' :: '"' :: (v0' ++ ['"'])) ++ T) ++ Z
            = c0 :: ((k0' ++ ':' :: ' ' :: '"' :: (v0' ++ ['"'])) ++ T ++ Z) from by
          simp]
        exact List.takeWhile_cons_of_neg (by simp [hc0])

/-- Re-matching the frontmatter regex against the rebuilt document
succeeds and captures exactly the serialised entry lines: the rebuilt
block is a fixed point of the matcher. -/
theorem frontMatch_serializeFm (o : FmObj) (rest : List Char)
    (hWF : objWF o = true) (hrest : '\n' ∉ rest.takeWhile isWsC) :
    frontMatch (serializeFm o ++ rest)
      = some (serializeFm o,
          List.intercalate ['\n'] (o.map serializeEntry), rest) := by
  obtain ⟨hne, hWFe, hnd⟩ := objWF_parts hWF
  have hser := serializeFm_eq_of_wf o (objWF_no_index hWF)
  have hlinesOK : ∀ l ∈ o.map serializeEntry, lineOK l = true := by
    intro l hl
    obtain ⟨⟨k, v⟩, he, hserl⟩ := List.mem_map.mp hl
    cases v with
    | tagsObj ks =>
      exact absurd (hWFe (k, .tagsObj ks) he) (by simp [entryWF])
    | str v' =>
      rw [← hserl]
      exact serializeEntry_lineOK (hWFe (k, .str v') he)
  have hfs := findSep_lines (o.map serializeEntry) rest hlinesOK hrest
  rw [List.append_assoc] at hfs
  have harg : serializeFm o ++ rest
      = '-' :: '-' :: '-' :: '\n' :: (List.intercalate ['\n']
          (o.map serializeEntry) ++ ("\n---\n".data ++ rest)) := by
    rw [hser]
    simp
  have hm2 : serializeFm o
      = '-' :: '-' :: '-' :: '\n' :: (List.intercalate ['\n']
          (o.map serializeEntry) ++ "\n---\n".data) := by
    rw [hser]
    simp
  rw [harg, hm2]
  unfold frontMatch
  rw [if_pos (show ("---".data).isPrefixOf ('-' :: '-' :: '-' :: '\n' ::
      (List.intercalate ['\n'] (o.map serializeEntry)
        ++ ("\n---\n".data ++ rest))) = true from rfl)]
  simp only [List.drop_succ_cons, List.drop_zero]
  rw [wsNlCands_newline (by
    rw [serialized_takeWhile_nil o hWF ("\n---\n".data ++ rest)]
    simp)]
  unfold frontMatchCands
  rw [hfs]
  rfl

theorem parseFm_round (o : FmObj) (hWF : objWF o = true) :
    parseFm (List.intercalate ['\n'] (o.map serializeEntry)) = o := by
  obtain ⟨hne, hWFe, hnd⟩ := objWF_parts hWF
  unfold parseFm
  rw [splitOnC_intercalate (o.map serializeEntry)
    (fun hmap => hne (List.map_eq_nil.mp hmap))
    (fun p hp => by
      obtain ⟨⟨k, v⟩, he, hserl⟩ := List.mem_map.mp hp
      cases v with
      | tagsObj ks =>
        exact absurd (hWFe (k, .tagsObj ks) he) (by simp [entryWF])
      | str v' =>
        rw [← hserl]
        exact (lineOK_parts (serializeEntry_lineOK (hWFe (k, .str v') he))).2.1)]
  have := parseFm_serialized o [] hWFe (by simp) hnd
  simpa using this

/-- `mergedObjOfCap` with no extracted tags and no set info. -/
theorem mergedObjOfCap_none (cap : List Char) :
    mergedObjOfCap cap none []
      = objInsert "type".data (.str (pageTypeFor none)) (parseFm cap) := by
  unfold mergedObjOfCap
  dsimp only
  rw [if_neg (by simp)]

/-- `mergedObjOfCap` with no extracted tags and a truthy root set. -/
theorem mergedObjOfCap_some_true (cap : List Char) (info : SetInfoE)
    (htr : jsTruthyS info.rootSet = true) :
    mergedObjOfCap cap (some info) []
      = objInsert "set".data (.str ((info.rootSet.getD "").data))
          (objInsert "type".data (.str (pageTypeFor (some info)))
            (parseFm cap)) := by
  unfold mergedObjOfCap
  dsimp only
  rw [if_neg (by simp), if_pos htr]

/-- `mergedObjOfCap` with no extracted tags and no truthy root set. -/
theorem mergedObjOfCap_some_false (cap : List Char) (info : SetInfoE)
    (htr : ¬jsTruthyS info.rootSet = true) :
    mergedObjOfCap cap (some info) []
      = objInsert "type".data (.str (pageTypeFor (some info)))
          (parseFm cap) := by
  unfold mergedObjOfCap
  dsimp only
  rw [if_neg (by simp), if_neg htr]

/-- Rebuilding the object from a capture that parses back to the
previous merge's result reproduces that result: the `type`/`set`
overwrites are absorbed. -/
theorem mergedObjOfCap_restable (cap L : List Char) (si : Option SetInfoE)
    (hparse : parseFm L = mergedObjOfCap cap si []) :
    mergedObjOfCap L si [] = mergedObjOfCap cap si [] := by
  cases si with
  | none =>
    rw [mergedObjOfCap_none cap] at hparse
    rw [mergedObjOfCap_none L, mergedObjOfCap_none cap, hparse]
    exact objInsert_same _ _ _ (objGet_objInsert_self _ _ _)
  | some info =>
    by_cases htr : jsTruthyS info.rootSet = true
    · rw [mergedObjOfCap_some_true cap info htr] at hparse
      rw [mergedObjOfCap_some_true L info htr,
        mergedObjOfCap_some_true cap info htr, hparse]
      have e1 : objInsert "type".data (.str (pageTypeFor (some info)))
          (objInsert "set".data (.str ((info.rootSet.getD "").data))
            (objInsert "type".data (.str (pageTypeFor (some info)))
              (parseFm cap)))
          = objInsert "set".data (.str ((info.rootSet.getD "").data))
            (objInsert "type".data (.str (pageTypeFor (some info)))
              (parseFm cap)) := by
        apply objInsert_same
        rw [objGet_objInsert_ne "type".data "set".data
          (.str ((info.rootSet.getD "").data)) (by decide)]
        exact objGet_objInsert_self _ _ _
      rw [e1]
      exact objInsert_same _ _ _ (objGet_objInsert_self _ _ _)
    · rw [mergedObjOfCap_some_false cap info htr] at hparse
      rw [mergedObjOfCap_some_false L info htr,
        mergedObjOfCap_some_false cap info htr, hparse]
      exact objInsert_same _ _ _ (objGet_objInsert_self _ _ _)

/-- **C2 (counterexample).**  The metadata merge is not idempotent: on
the plain document `"hello"` the first pass prepends a frontmatter
block followed by a blank line, and the second pass re-matches the
block with the trailing greedy `\s*\n` swallowing that blank line, so
the rebuilt document loses it — `merge (merge d) ≠ merge d`. -/
theorem c2_not_idempotent :
    addPageMetadata (addPageMetadata "hello" none) none
      ≠ addPageMetadata "hello" none := by
  decide

/-- **C2 (amended).**  The merge is idempotent only on restricted
inputs: if the document already carries a frontmatter block, the merged
object is well-formed (nonempty; scalar values; nonempty trimmed keys
free of `:`, newlines and `$` that are not array-index keys; values
free of newlines and `$`; distinct keys), and no tags are extracted
from either the document or its merged form, then re-running the merge
reproduces its output byte-for-byte.  Outside these conditions
idempotence fails (see the counterexample: a document without a block
loses the separating blank line on the second pass). -/
theorem c2_restricted_idempotence (d : String) (si : Option SetInfoE)
    (m cap rest : List Char)
    (hfm : frontMatch d.data = some (m, cap, rest))
    (htags1 : extractTagsL d.data = [])
    (hWF : objWF (mergedObjOfCap cap si []) = true)
    (htags2 : extractTagsL (addPageMetadataL d.data si) = []) :
    addPageMetadataL (addPageMetadataL d.data si) si
      = addPageMetadataL d.data si := by
  have hrest : '\n' ∉ rest.takeWhile isWsC := frontMatch_rest_no_nl hfm
  have hf1 : addPageMetadataL d.data si
      = serializeFm (mergedObjOfCap cap si []) ++ rest := by
    unfold addPageMetadataL
    dsimp only
    rw [hfm, htags1]
    exact congrArg (· ++ rest)
      (expandRepl_no_dollar m cap rest _ (serializeFm_no_dollar _ hWF))
  have hfm2 : frontMatch (addPageMetadataL d.data si)
      = some (serializeFm (mergedObjOfCap cap si []),
          List.intercalate ['\n']
            ((mergedObjOfCap cap si []).map serializeEntry), rest) := by
    rw [hf1]
    exact frontMatch_serializeFm _ rest hWF hrest
  have hparse : parseFm (List.intercalate ['\n']
      ((mergedObjOfCap cap si []).map serializeEntry))
      = mergedObjOfCap cap si [] := parseFm_round _ hWF
  have hstable := mergedObjOfCap_restable cap
    (List.intercalate ['\n'] ((mergedObjOfCap cap si []).map serializeEntry))
    si hparse
  rw [hf1] at hfm2 htags2
  rw [hf1]
  unfold addPageMetadataL
  dsimp only
  rw [hfm2]
  dsimp only
  rw [htags2, hstable]
  exact congrArg (· ++ rest)
    (expandRepl_no_dollar _ _ _ _ (serializeFm_no_dollar _ hWF))

/-- Witness for `c2_restricted_idempotence`: a document with a plain
frontmatter block, evaluated concretely. -/
theorem c2_restricted_idempotence_witness :
    (frontMatch ("---\na: \"1\"\n---\ntext").data
        = some (("---\na: \"1\"\n---\n").data, ("a: \"1\"").data, "text".data)
      ∧ extractTagsL ("---\na: \"1\"\n---\ntext").data = []
      ∧ objWF (mergedObjOfCap ("a: \"1\"").data none []) = true
      ∧ extractTagsL
          (addPageMetadataL ("---\na: \"1\"\n---\ntext").data none) = [])
    ∧ addPageMetadataL
        (addPageMetadataL ("---\na: \"1\"\n---\ntext").data none) none
      = addPageMetadataL ("---\na: \"1\"\n---\ntext").data none :=
  ⟨⟨by decide, by decide, by decide, by decide⟩,
    c2_restricted_idempotence "---\na: \"1\"\n---\ntext" none
      ("---\na: \"1\"\n---\n").data ("a: \"1\"").data "text".data
      (by decide) (by decide) (by decide) (by decide)⟩

end O2A
